import Mathlib

/-!
Shallow embedding of the pgfixtures fixture-loading engine:
the dependency-graph topological sorter (internal/db), the fixture
document resolver (internal/parser), and the transactional load
orchestrator with its Postgres/MySQL dialect adapters
(internal/loader, internal/db).

Go maps are modelled as association lists (no duplicate keys arise in
the modelled executions); Go's unbounded recursion is modelled with an
explicit fuel parameter that the development proves (or chooses)
sufficient, so that the fuel-exhaustion branch is unreachable on the
inputs of interest.
-/

namespace PgFixtures

/-- YAML scalar values as they flow through fixtures (`any` in Go). -/
inductive Value where
  | str (s : String)
  | int (i : Int)
  | bool (b : Bool)
  | null
deriving DecidableEq, Repr

/-- A row record: Go's `map[string]any`, modelled as an association list
(one binding per key in the modelled executions). -/
abbrev Row := List (String × Value)

theorem error_bind {α β : Type} (e : String) (f : α → Except String β) :
    ((Except.error e : Except String α) >>= f) = .error e := rfl

theorem ok_bind {α β : Type} (a : α) (f : α → Except String β) :
    ((Except.ok a : Except String α) >>= f) = f a := rfl

theorem pure_bind_except {α β : Type} (a : α) (f : α → Except String β) :
    ((pure a : Except String α) >>= f) = f a := rfl

namespace DB

/-- The dependency graph `map[string][]string`: child table to the list of
parent tables it references. -/
abbrev Graph := List (String × List String)

/-- `graph[node]` in Go: a missing key yields the nil (empty) slice. -/
def adj (graph : Graph) (node : String) : List String :=
  (graph.lookup node).getD []

/-- The mutable state threaded through `visit` in `TopoSort`:
the `visited` set, the `tempMark` set, and the accumulated `order` list. -/
structure VisitState where
  visited : List String
  tempMark : List String
  order : List String
deriving Repr

/-- The recursive closure `visit` of `TopoSort` (append variant): skip
visited nodes, signal a cycle on an in-progress node, otherwise mark
in-progress, visit all graph-listed dependencies, then mark done and
append the node to the order when it was requested or pulled in as a
dependency.  `fuel` bounds the recursion depth; `TopoSort` passes enough
fuel that the `fuel = 0` branch is unreachable (proved below). -/
def visit (graph : Graph) (inputTables : List String) :
    Nat → String → Bool → VisitState → Except String VisitState
  | 0, _, _, _ => .error "fuel exhausted"
  | fuel+1, node, isDependent, s =>
    if node ∈ s.visited then .ok s
    else if node ∈ s.tempMark then
      .error ("cyclic dependency detected: " ++ node)
    else do
      let s2 ← (adj graph node).foldlM
        (fun st dep => visit graph inputTables fuel dep true st)
        { s with tempMark := node :: s.tempMark }
      .ok { visited := node :: s2.visited,
            tempMark := s2.tempMark.erase node,
            order :=
              if node ∈ inputTables ∨ isDependent = true then
                s2.order ++ [node]
              else s2.order }

/-- Every table name mentioned by the graph or the requested list; the
recursion depth of `visit` is bounded by its length. -/
def nodeUniverse (graph : Graph) (inputTables : List String) : List String :=
  inputTables ++ graph.map Prod.fst ++ graph.flatMap Prod.snd

/-- `TopoSort` (variant that appends each finished node and reverses at the
end): depth-first traversal per requested table with three-state marking. -/
def TopoSort (graph : Graph) (inputTables : List String) :
    Except String (List String) := do
  let fuel := (nodeUniverse graph inputTables).length + 1
  let s ← inputTables.foldlM
    (fun st node => visit graph inputTables fuel node false st)
    ⟨[], [], []⟩
  .ok s.order.reverse

/-- The edge relation of the dependency graph: `Edge g c p` holds when `p`
is listed among the parents of `c` (the tables `c` references). -/
def Edge (graph : Graph) (a b : String) : Prop := b ∈ adj graph a

/-- A table reachable from the requested set by following dependency edges:
the closure that `TopoSort` is specified to return. -/
def ReachableFrom (graph : Graph) (inputs : List String) (n : String) : Prop :=
  ∃ s0 ∈ inputs, Relation.ReflTransGen (Edge graph) s0 n

/-- The invariant of the DFS state maintained by `visit`. -/
structure Inv (graph : Graph) (inputs : List String) (s : VisitState) : Prop where
  tm_nodup : s.tempMark.Nodup
  ord_nodup : s.order.Nodup
  ord_vis : ∀ n, n ∈ s.order ↔ n ∈ s.visited
  vis_closed : ∀ c ∈ s.visited, ∀ p ∈ adj graph c, p ∈ s.visited
  disj : ∀ n ∈ s.visited, n ∉ s.tempMark
  ord_edges : ∀ c ∈ s.order, ∀ p ∈ adj graph c, [p, c].Sublist s.order
  vis_reach : ∀ n ∈ s.visited, ReachableFrom graph inputs n

theorem lookup_mem {α β : Type} [DecidableEq α] :
    ∀ {l : List (α × β)} {a : α} {b : β}, l.lookup a = some b → (a, b) ∈ l := by
  intro l
  induction l with
  | nil => intro a b h; simp [List.lookup] at h
  | cons kv rest ih =>
    intro a b h
    rw [List.lookup] at h
    by_cases hk : a = kv.1
    · subst hk
      simp at h
      subst h
      exact List.mem_cons_self _ _
    · have : (a == kv.1) = false := by simp [hk]
      rw [this] at h
      exact List.mem_cons_of_mem _ (ih h)

theorem adj_subset_universe (graph : Graph) (inputs : List String) (c : String) :
    ∀ p ∈ adj graph c, p ∈ nodeUniverse graph inputs := by
  intro p hp
  unfold adj at hp
  unfold nodeUniverse
  cases hl : graph.lookup c with
  | none => rw [hl] at hp; simp at hp
  | some ps =>
    rw [hl] at hp
    simp only [Option.getD_some] at hp
    have hmem : (c, ps) ∈ graph := lookup_mem hl
    refine List.mem_append.mpr (Or.inr ?_)
    exact List.mem_flatMap.mpr ⟨(c, ps), hmem, hp⟩

theorem input_mem_universe (graph : Graph) (inputs : List String) {i : String}
    (h : i ∈ inputs) : i ∈ nodeUniverse graph inputs := by
  unfold nodeUniverse
  exact List.mem_append.mpr (Or.inl (List.mem_append.mpr (Or.inl h)))

theorem tempMark_length_le {graph : Graph} {inputs : List String}
    {tm : List String} (hnd : tm.Nodup)
    (hsub : tm ⊆ nodeUniverse graph inputs) :
    tm.length ≤ (nodeUniverse graph inputs).length :=
  (hnd.subperm hsub).length_le

/-- The induction statement for `visit`: under the DFS invariant, with the
in-progress stack leading to `node`, `node` reachable from the requested
set, and sufficient fuel, `visit` either succeeds — preserving the
invariant, leaving `tempMark` unchanged, growing `visited`, extending
`order` on the right, and ensuring `node` is visited — or fails with a
cycle error naming a node that lies on a reachable cycle. -/
def VisitMaster (graph : Graph) (inputs : List String) (fuel : Nat) : Prop :=
  ∀ (node : String) (isDependent : Bool) (s : VisitState),
    Inv graph inputs s →
    (∀ t ∈ s.tempMark, Relation.TransGen (Edge graph) t node) →
    ReachableFrom graph inputs node →
    (isDependent = true ∨ node ∈ inputs) →
    s.tempMark ⊆ nodeUniverse graph inputs →
    node ∈ nodeUniverse graph inputs →
    (nodeUniverse graph inputs).length + 1 ≤ fuel + s.tempMark.length →
    (∃ s2, visit graph inputs fuel node isDependent s = .ok s2 ∧
       Inv graph inputs s2 ∧
       s2.tempMark = s.tempMark ∧
       (∀ n ∈ s.visited, n ∈ s2.visited) ∧
       (∃ d, s2.order = s.order ++ d) ∧
       node ∈ s2.visited) ∨
    (∃ m, visit graph inputs fuel node isDependent s =
            .error ("cyclic dependency detected: " ++ m) ∧
          Relation.TransGen (Edge graph) m m ∧
          ReachableFrom graph inputs m)

theorem foldVisit_master (graph : Graph) (inputs : List String) (fuel : Nat)
    (IH : VisitMaster graph inputs fuel) :
    ∀ (ds : List String) (s : VisitState),
      Inv graph inputs s →
      (∀ d ∈ ds, ∀ t ∈ s.tempMark, Relation.TransGen (Edge graph) t d) →
      (∀ d ∈ ds, ReachableFrom graph inputs d) →
      (∀ d ∈ ds, d ∈ nodeUniverse graph inputs) →
      s.tempMark ⊆ nodeUniverse graph inputs →
      (nodeUniverse graph inputs).length + 1 ≤ fuel + s.tempMark.length →
      (∃ s2, ds.foldlM (fun st dep => visit graph inputs fuel dep true st) s
               = .ok s2 ∧
         Inv graph inputs s2 ∧ s2.tempMark = s.tempMark ∧
         (∀ n ∈ s.visited, n ∈ s2.visited) ∧
         (∃ d, s2.order = s.order ++ d) ∧
         (∀ d ∈ ds, d ∈ s2.visited)) ∨
      (∃ m, ds.foldlM (fun st dep => visit graph inputs fuel dep true st) s
              = .error ("cyclic dependency detected: " ++ m) ∧
            Relation.TransGen (Edge graph) m m ∧
            ReachableFrom graph inputs m) := by
  intro ds
  induction ds with
  | nil =>
    intro s hInv _ _ _ _ _
    left
    exact ⟨s, rfl, hInv, rfl, fun n h => h, ⟨[], by simp⟩, by simp⟩
  | cons d ds ih =>
    intro s hInv htm hreach huniv hsub hfuel
    rw [List.foldlM_cons]
    rcases IH d true s hInv (htm d (List.mem_cons_self _ _))
        (hreach d (List.mem_cons_self _ _)) (Or.inl rfl) hsub
        (huniv d (List.mem_cons_self _ _)) hfuel with
      ⟨s1, hv, hInv1, htm1, hmono1, ⟨d1, hord1⟩, hdv⟩ | ⟨m, hv, hcyc, hrm⟩
    · rw [hv]
      have htm' : ∀ e ∈ ds, ∀ t ∈ s1.tempMark,
          Relation.TransGen (Edge graph) t e := by
        rw [htm1]
        exact fun e he => htm e (List.mem_cons_of_mem _ he)
      have hsub1 : s1.tempMark ⊆ nodeUniverse graph inputs := by
        rw [htm1]; exact hsub
      have hfuel1 :
          (nodeUniverse graph inputs).length + 1 ≤ fuel + s1.tempMark.length := by
        rw [htm1]; exact hfuel
      rcases ih s1 hInv1 htm' (fun e he => hreach e (List.mem_cons_of_mem _ he))
          (fun e he => huniv e (List.mem_cons_of_mem _ he)) hsub1 hfuel1 with
        ⟨s2, hf, hInv2, htm2, hmono2, ⟨d2, hord2⟩, hcov⟩ | ⟨m, hf, hcyc, hrm⟩
      · left
        refine ⟨s2, hf, hInv2, htm2.trans htm1,
          fun n h => hmono2 n (hmono1 n h),
          ⟨d1 ++ d2, by rw [hord2, hord1, List.append_assoc]⟩, ?_⟩
        intro e he
        rcases List.mem_cons.mp he with rfl | he'
        · exact hmono2 e hdv
        · exact hcov e he'
      · right
        exact ⟨m, hf, hcyc, hrm⟩
    · right
      rw [hv]
      exact ⟨m, rfl, hcyc, hrm⟩

theorem visit_master (graph : Graph) (inputs : List String) :
    ∀ fuel, VisitMaster graph inputs fuel := by
  intro fuel
  induction fuel using Nat.strong_induction_on with
  | _ fuel IH =>
    match fuel with
    | 0 =>
      intro node isDependent s hInv _ _ _ hsub _ hfuel
      exfalso
      have := tempMark_length_le hInv.tm_nodup hsub
      omega
    | fuel+1 =>
      intro node isDependent s hInv htm hreach hdep hsub huniv hfuel
      by_cases hvis : node ∈ s.visited
      · left
        refine ⟨s, ?_, hInv, rfl, fun n h => h, ⟨[], by simp⟩, hvis⟩
        simp [visit, hvis]
      · by_cases htmp : node ∈ s.tempMark
        · right
          refine ⟨node, ?_, htm node htmp, hreach⟩
          simp [visit, hvis, htmp]
        · have hInv1 : Inv graph inputs ⟨s.visited, node :: s.tempMark, s.order⟩ :=
            { tm_nodup := List.nodup_cons.mpr ⟨htmp, hInv.tm_nodup⟩
              ord_nodup := hInv.ord_nodup
              ord_vis := hInv.ord_vis
              vis_closed := hInv.vis_closed
              disj := by
                intro n hn
                simp only [List.mem_cons, not_or]
                exact ⟨fun h => hvis (h ▸ hn), hInv.disj n hn⟩
              ord_edges := hInv.ord_edges
              vis_reach := hInv.vis_reach }
          have htm' : ∀ d ∈ adj graph node, ∀ t ∈ (node :: s.tempMark),
              Relation.TransGen (Edge graph) t d := by
            intro d hd t ht
            rcases List.mem_cons.mp ht with rfl | ht'
            · exact Relation.TransGen.single hd
            · exact (htm t ht').tail hd
          have hreach' : ∀ d ∈ adj graph node, ReachableFrom graph inputs d := by
            intro d hd
            obtain ⟨s0, hs0, hp⟩ := hreach
            exact ⟨s0, hs0, hp.tail hd⟩
          have hsub1 : (node :: s.tempMark) ⊆ nodeUniverse graph inputs := by
            intro t ht
            rcases List.mem_cons.mp ht with rfl | ht'
            · exact huniv
            · exact hsub ht'
          have hfuel1 : (nodeUniverse graph inputs).length + 1
              ≤ fuel + (node :: s.tempMark).length := by
            simp only [List.length_cons]
            omega
          rcases foldVisit_master graph inputs fuel (IH fuel (by omega))
              (adj graph node) ⟨s.visited, node :: s.tempMark, s.order⟩
              hInv1 htm' hreach' (adj_subset_universe graph inputs node)
              hsub1 hfuel1 with
            ⟨s2, hf, hInv2, htm2, hmono2, ⟨d2, hord2⟩, hcov⟩ | ⟨m, hf, hcyc, hrm⟩
          · -- the fold succeeded: `visit` finishes `node`
            have hnode2 : node ∈ s2.tempMark := by
              rw [htm2]; exact List.mem_cons_self _ _
            have hnvis2 : node ∉ s2.visited := fun h => hInv2.disj node h hnode2
            have hnord2 : node ∉ s2.order := fun h =>
              hnvis2 ((hInv2.ord_vis node).mp h)
            have hcond : node ∈ inputs ∨ isDependent = true :=
              hdep.elim Or.inr Or.inl
            have herase : s2.tempMark.erase node = s.tempMark := by
              rw [htm2]; exact List.erase_cons_head node s.tempMark
            have hveq : visit graph inputs (fuel+1) node isDependent s =
                .ok ⟨node :: s2.visited, s2.tempMark.erase node,
                     s2.order ++ [node]⟩ := by
              simp only [visit, if_neg hvis, if_neg htmp]
              rw [hf]
              simp only [Except.bind, bind, if_pos hcond]
            left
            refine ⟨_, hveq, ?_, ?_, ?_, ?_, List.mem_cons_self _ _⟩
            · exact
                { tm_nodup := by rw [herase]; exact hInv.tm_nodup
                  ord_nodup :=
                    hInv2.ord_nodup.append (List.nodup_singleton node)
                      (fun a ha hb => hnord2 (List.mem_singleton.mp hb ▸ ha))
                  ord_vis := by
                    intro n
                    simp only [List.mem_append, List.mem_singleton,
                      List.mem_cons]
                    rw [hInv2.ord_vis n]
                    tauto
                  vis_closed := by
                    intro c hc p hp
                    rcases List.mem_cons.mp hc with rfl | hc'
                    · exact List.mem_cons_of_mem _ (hcov p hp)
                    · exact List.mem_cons_of_mem _ (hInv2.vis_closed c hc' p hp)
                  disj := by
                    intro n hn
                    rw [herase]
                    rcases List.mem_cons.mp hn with rfl | hn'
                    · exact htmp
                    · intro hmem
                      exact hInv2.disj n hn' (by rw [htm2]; exact List.mem_cons_of_mem _ hmem)
                  ord_edges := by
                    intro c hc p hp
                    rcases List.mem_append.mp hc with hc' | hc'
                    · exact (hInv2.ord_edges c hc' p hp).trans
                        (List.sublist_append_left _ _)
                    · have : c = node := List.mem_singleton.mp hc'
                      subst this
                      have hpord : p ∈ s2.order :=
                        (hInv2.ord_vis p).mpr (hcov p hp)
                      exact List.Sublist.append
                        (List.singleton_sublist.mpr hpord)
                        (List.Sublist.refl [c])
                  vis_reach := by
                    intro n hn
                    rcases List.mem_cons.mp hn with rfl | hn'
                    · exact hreach
                    · exact hInv2.vis_reach n hn' }
            · exact herase
            · exact fun n h => List.mem_cons_of_mem _ (hmono2 n h)
            · exact ⟨d2 ++ [node], by
                simp only [hord2]
                rw [List.append_assoc]⟩
          · right
            refine ⟨m, ?_, hcyc, hrm⟩
            simp only [visit, if_neg hvis, if_neg htmp]
            rw [hf]
            rfl

theorem foldTop_master (graph : Graph) (inputs : List String) :
    ∀ (is_ : List String) (s : VisitState), is_ ⊆ inputs →
      Inv graph inputs s → s.tempMark = [] →
      (∃ s2, is_.foldlM
          (fun st node =>
            visit graph inputs ((nodeUniverse graph inputs).length + 1)
              node false st) s = .ok s2 ∧
        Inv graph inputs s2 ∧ s2.tempMark = [] ∧
        (∀ n ∈ s.visited, n ∈ s2.visited) ∧
        (∀ i ∈ is_, i ∈ s2.visited)) ∨
      (∃ m, is_.foldlM
          (fun st node =>
            visit graph inputs ((nodeUniverse graph inputs).length + 1)
              node false st) s = .error ("cyclic dependency detected: " ++ m) ∧
        Relation.TransGen (Edge graph) m m ∧
        ReachableFrom graph inputs m) := by
  intro is_
  induction is_ with
  | nil =>
    intro s _ hInv htm
    left
    exact ⟨s, rfl, hInv, htm, fun n h => h, by simp⟩
  | cons i is_ ih =>
    intro s hsub hInv htm
    rw [List.foldlM_cons]
    have hi : i ∈ inputs := hsub (List.mem_cons_self _ _)
    rcases visit_master graph inputs ((nodeUniverse graph inputs).length + 1)
        i false s hInv (by rw [htm]; intro t ht; simp at ht)
        ⟨i, hi, Relation.ReflTransGen.refl⟩ (Or.inr hi)
        (by rw [htm]; intro t ht; simp at ht)
        (input_mem_universe graph inputs hi)
        (by rw [htm]; simp) with
      ⟨s1, hv, hInv1, htm1, hmono1, _, hiv⟩ | ⟨m, hv, hcyc, hrm⟩
    · rw [hv]
      rcases ih s1 (fun x hx => hsub (List.mem_cons_of_mem _ hx)) hInv1
          (htm1.trans htm) with
        ⟨s2, hf, hInv2, htm2, hmono2, hcov⟩ | ⟨m, hf, hcyc, hrm⟩
      · left
        refine ⟨s2, hf, hInv2, htm2, fun n h => hmono2 n (hmono1 n h), ?_⟩
        intro x hx
        rcases List.mem_cons.mp hx with rfl | hx'
        · exact hmono2 x hiv
        · exact hcov x hx'
      · right
        exact ⟨m, hf, hcyc, hrm⟩
    · right
      rw [hv]
      exact ⟨m, rfl, hcyc, hrm⟩

/-- `TopoSort` either succeeds, ending in a DFS state satisfying the
invariant with every requested table visited, or fails with a cycle error
naming a node on a cycle reachable from the requested set. -/
theorem topoSort_master (graph : Graph) (inputs : List String) :
    (∃ s, TopoSort graph inputs = .ok s.order.reverse ∧
       Inv graph inputs s ∧ (∀ i ∈ inputs, i ∈ s.visited)) ∨
    (∃ m, TopoSort graph inputs =
            .error ("cyclic dependency detected: " ++ m) ∧
       Relation.TransGen (Edge graph) m m ∧
       ReachableFrom graph inputs m) := by
  have hInv0 : Inv graph inputs ⟨[], [], []⟩ :=
    { tm_nodup := List.nodup_nil
      ord_nodup := List.nodup_nil
      ord_vis := by intro n; simp
      vis_closed := by intro c hc; simp at hc
      disj := by intro n hn; simp at hn
      ord_edges := by intro c hc; simp at hc
      vis_reach := by intro n hn; simp at hn }
  rcases foldTop_master graph inputs inputs ⟨[], [], []⟩
      (fun x hx => hx) hInv0 rfl with
    ⟨s2, hf, hInv2, _, _, hcov⟩ | ⟨m, hf, hcyc, hrm⟩
  · left
    refine ⟨s2, ?_, hInv2, hcov⟩
    simp only [TopoSort]
    rw [hf]
    rfl
  · right
    refine ⟨m, ?_, hcyc, hrm⟩
    simp only [TopoSort]
    rw [hf]
    rfl

/-- In a final invariant state covering the requested set, every reachable
node has been visited. -/
theorem reach_visited {graph : Graph} {inputs : List String} {s : VisitState}
    (hInv : Inv graph inputs s) (hin : ∀ i ∈ inputs, i ∈ s.visited) :
    ∀ n, ReachableFrom graph inputs n → n ∈ s.visited := by
  rintro n ⟨s0, hs0, hpath⟩
  induction hpath with
  | refl => exact hin s0 hs0
  | tail _ hbc ih => exact hInv.vis_closed _ ih _ hbc

theorem sublist_pair_indexOf :
    ∀ {l : List String}, l.Nodup → ∀ {a b : String}, [a, b].Sublist l →
      l.indexOf a < l.indexOf b := by
  intro l
  induction l with
  | nil => intro _ a b h; exact absurd (h.subset (by simp)) (List.not_mem_nil a)
  | cons x xs ih =>
    intro hnd a b h
    obtain ⟨hx, hxs⟩ := List.nodup_cons.mp hnd
    cases h with
    | cons y h1 =>
      have ha : a ∈ xs := h1.subset (by simp)
      have hb : b ∈ xs := h1.subset (by simp)
      have hxa : (x == a) = false := beq_false_of_ne (fun he => hx (he ▸ ha))
      have hxb : (x == b) = false := beq_false_of_ne (fun he => hx (he ▸ hb))
      simp only [List.indexOf_cons, hxa, hxb, cond_false]
      exact Nat.succ_lt_succ (ih hxs h1)
    | cons₂ y h1 =>
      have hb : b ∈ xs := h1.subset (by simp)
      have hxb : (x == b) = false := beq_false_of_ne (fun he => hx (he ▸ hb))
      simp only [List.indexOf_cons, beq_self_eq_true, hxb, cond_true, cond_false]
      exact Nat.succ_pos _

theorem transGen_indexOf {graph : Graph} {inputs : List String} {s : VisitState}
    (hInv : Inv graph inputs s) (hin : ∀ i ∈ inputs, i ∈ s.visited) :
    ∀ a b, Relation.TransGen (Edge graph) a b →
      ReachableFrom graph inputs a →
      s.order.indexOf b < s.order.indexOf a := by
  intro a b h
  induction h with
  | single hab =>
    intro hra
    have hao : a ∈ s.order := (hInv.ord_vis a).mpr (reach_visited hInv hin a hra)
    exact sublist_pair_indexOf hInv.ord_nodup (hInv.ord_edges a hao _ hab)
  | tail hab hbc ih =>
    intro hra
    obtain ⟨s0, hs0, hp⟩ := hra
    have hrb : ReachableFrom graph inputs _ :=
      ⟨s0, hs0, hp.trans hab.to_reflTransGen⟩
    have hbo := (hInv.ord_vis _).mpr (reach_visited hInv hin _ hrb)
    exact lt_trans
      (sublist_pair_indexOf hInv.ord_nodup (hInv.ord_edges _ hbo _ hbc))
      (ih ⟨s0, hs0, hp⟩)

/-- C1: on every graph whose part reachable from the requested set is
acyclic, `TopoSort` succeeds and returns exactly the reachable closure of
the requested tables, each exactly once, in dependent-before-dependency
order: for every edge (child, parent) with both endpoints in the result,
the child appears before the parent in the returned list, so reversing
the returned list places every parent before its children. -/
theorem topoSort_acyclic_sound_complete (graph : Graph) (inputs : List String)
    (hacyc : ∀ n, ReachableFrom graph inputs n →
      ¬ Relation.TransGen (Edge graph) n n) :
    ∃ l, TopoSort graph inputs = .ok l ∧ l.Nodup ∧
      (∀ n, n ∈ l ↔ ReachableFrom graph inputs n) ∧
      (∀ c p, c ∈ l → p ∈ adj graph c → [c, p].Sublist l) ∧
      (∀ c p, c ∈ l → p ∈ adj graph c → [p, c].Sublist l.reverse) := by
  rcases topoSort_master graph inputs with
    ⟨s, hok, hInv, hcov⟩ | ⟨m, _, hcyc, hrm⟩
  · refine ⟨s.order.reverse, hok, List.nodup_reverse.mpr hInv.ord_nodup,
      ?_, ?_, ?_⟩
    · intro n
      rw [List.mem_reverse, hInv.ord_vis n]
      exact ⟨hInv.vis_reach n, reach_visited hInv hcov n⟩
    · intro c p hc hp
      have hco : c ∈ s.order := List.mem_reverse.mp hc
      have h2 := (hInv.ord_edges c hco p hp).reverse
      simpa using h2
    · intro c p hc hp
      rw [List.reverse_reverse]
      exact hInv.ord_edges c (List.mem_reverse.mp hc) p hp
  · exact absurd hcyc (hacyc m hrm)

/-- Witness for C1 at a concrete input: the empty graph with one requested
table. -/
theorem topoSort_acyclic_witness :
    ∃ l, TopoSort [] ["public.users"] = .ok l ∧ l.Nodup ∧
      (∀ n, n ∈ l ↔ ReachableFrom [] ["public.users"] n) ∧
      (∀ c p, c ∈ l → p ∈ adj [] c → [c, p].Sublist l) ∧
      (∀ c p, c ∈ l → p ∈ adj [] c → [p, c].Sublist l.reverse) := by
  apply topoSort_acyclic_sound_complete
  intro n _ h
  cases h with
  | single he => simp [Edge, adj, List.lookup] at he
  | tail _ he => simp [Edge, adj, List.lookup] at he

/-- C3: whenever some cycle (including a self-loop) is reachable from the
requested set, `TopoSort` fails with a cycle error naming a node on a
reachable cycle, producing no output list. -/
theorem topoSort_cycle_error (graph : Graph) (inputs : List String)
    (hcyc : ∃ n, ReachableFrom graph inputs n ∧
      Relation.TransGen (Edge graph) n n) :
    ∃ m, TopoSort graph inputs =
           .error ("cyclic dependency detected: " ++ m) ∧
      Relation.TransGen (Edge graph) m m ∧
      ReachableFrom graph inputs m := by
  rcases topoSort_master graph inputs with ⟨s, _, hInv, hcov⟩ | hok
  · exfalso
    obtain ⟨n, hrn, htg⟩ := hcyc
    exact absurd (transGen_indexOf hInv hcov n n htg hrn) (lt_irrefl _)
  · exact hok

/-- Witness for C3 at a concrete input: a requested table with a self-loop. -/
theorem topoSort_cycle_witness :
    ∃ m, TopoSort [("a", ["a"])] ["a"] =
           .error ("cyclic dependency detected: " ++ m) ∧
      Relation.TransGen (Edge [("a", ["a"])]) m m ∧
      ReachableFrom [("a", ["a"])] ["a"] m := by
  apply topoSort_cycle_error
  refine ⟨"a", ⟨"a", by simp, Relation.ReflTransGen.refl⟩,
    Relation.TransGen.single ?_⟩
  show "a" ∈ adj [("a", ["a"])] "a"
  simp [adj, List.lookup]

/-! The other `TopoSort` variant present in the source (db package,
`toposort` with prepend): identical traversal, but each finished node is
prepended to the order list and the list is returned without the final
reversal. -/

/-- `visit` closure of the prepend variant of `TopoSort`. -/
def visitPrepend (graph : Graph) (inputTables : List String) :
    Nat → String → Bool → VisitState → Except String VisitState
  | 0, _, _, _ => .error "fuel exhausted"
  | fuel+1, node, isDependent, s =>
    if node ∈ s.visited then .ok s
    else if node ∈ s.tempMark then
      .error ("cyclic dependency detected: " ++ node)
    else do
      let s2 ← (adj graph node).foldlM
        (fun st dep => visitPrepend graph inputTables fuel dep true st)
        { s with tempMark := node :: s.tempMark }
      .ok { visited := node :: s2.visited,
            tempMark := s2.tempMark.erase node,
            order :=
              if node ∈ inputTables ∨ isDependent = true then
                node :: s2.order
              else s2.order }

/-- The prepend variant of `TopoSort`: prepends each finished node and
returns the accumulated list without reversing it. -/
def TopoSortPrepend (graph : Graph) (inputTables : List String) :
    Except String (List String) := do
  let fuel := (nodeUniverse graph inputTables).length + 1
  let s ← inputTables.foldlM
    (fun st node => visitPrepend graph inputTables fuel node false st)
    ⟨[], [], []⟩
  .ok s.order

/-- State correspondence between the two variants: same marks, reversed
order accumulator. -/
def revOrder (s : VisitState) : VisitState :=
  ⟨s.visited, s.tempMark, s.order.reverse⟩

theorem revOrder_revOrder (s : VisitState) : revOrder (revOrder s) = s := by
  cases s
  simp [revOrder]

theorem foldPrepend_eq (graph : Graph) (inputs : List String) (fuel : Nat)
    (IH : ∀ (node : String) (isDependent : Bool) (s : VisitState),
      visitPrepend graph inputs fuel node isDependent s =
        (visit graph inputs fuel node isDependent (revOrder s)).map revOrder) :
    ∀ (ds : List String) (s : VisitState),
      ds.foldlM (fun st dep => visitPrepend graph inputs fuel dep true st) s =
        (ds.foldlM (fun st dep => visit graph inputs fuel dep true st)
          (revOrder s)).map revOrder := by
  intro ds
  induction ds with
  | nil =>
    intro s
    show Except.ok s = Except.ok (revOrder (revOrder s))
    rw [revOrder_revOrder]
  | cons d ds ih =>
    intro s
    rw [List.foldlM_cons, List.foldlM_cons, IH d true s]
    cases hA : visit graph inputs fuel d true (revOrder s) with
    | error e => rfl
    | ok s1 =>
      show List.foldlM _ (revOrder s1) ds = _
      rw [ih (revOrder s1), revOrder_revOrder]
      rfl

theorem visitPrepend_eq (graph : Graph) (inputs : List String) :
    ∀ (fuel : Nat) (node : String) (isDependent : Bool) (s : VisitState),
      visitPrepend graph inputs fuel node isDependent s =
        (visit graph inputs fuel node isDependent (revOrder s)).map revOrder := by
  intro fuel
  induction fuel using Nat.strong_induction_on with
  | _ fuel IH =>
    match fuel with
    | 0 => intro node isDependent s; rfl
    | fuel+1 =>
      intro node isDependent s
      by_cases hvis : node ∈ s.visited
      · have hvis' : node ∈ (revOrder s).visited := hvis
        simp only [visitPrepend, visit, if_pos hvis, if_pos hvis',
          Except.map, revOrder_revOrder]
      · have hvis' : node ∉ (revOrder s).visited := hvis
        by_cases htmp : node ∈ s.tempMark
        · have htmp' : node ∈ (revOrder s).tempMark := htmp
          simp only [visitPrepend, visit, if_neg hvis, if_neg hvis',
            if_pos htmp, if_pos htmp', Except.map]
        · have htmp' : node ∉ (revOrder s).tempMark := htmp
          simp only [visitPrepend, visit, if_neg hvis, if_neg hvis',
            if_neg htmp, if_neg htmp']
          rw [foldPrepend_eq graph inputs fuel (IH fuel (by omega))
            (adj graph node) { s with tempMark := node :: s.tempMark }]
          have hstart : revOrder { s with tempMark := node :: s.tempMark } =
              { revOrder s with tempMark := node :: (revOrder s).tempMark } := rfl
          rw [hstart]
          cases hA : (adj graph node).foldlM
              (fun st dep => visit graph inputs fuel dep true st)
              { revOrder s with
                tempMark := node :: (revOrder s).tempMark } with
          | error e => rfl
          | ok s2 =>
            show Except.ok _ = Except.ok _
            by_cases hcond : node ∈ inputs ∨ isDependent = true
            · simp only [if_pos hcond, revOrder, List.reverse_append,
                List.reverse_cons, List.reverse_nil, List.nil_append,
                List.singleton_append]
            · simp only [if_neg hcond, revOrder]

theorem foldTopPrepend_eq (graph : Graph) (inputs : List String) (fuel : Nat) :
    ∀ (is_ : List String) (s : VisitState),
      is_.foldlM (fun st node => visitPrepend graph inputs fuel node false st) s =
        (is_.foldlM (fun st node => visit graph inputs fuel node false st)
          (revOrder s)).map revOrder := by
  intro is_
  induction is_ with
  | nil =>
    intro s
    show Except.ok s = Except.ok (revOrder (revOrder s))
    rw [revOrder_revOrder]
  | cons i is_ ih =>
    intro s
    rw [List.foldlM_cons, List.foldlM_cons, visitPrepend_eq graph inputs fuel i false s]
    cases hA : visit graph inputs fuel i false (revOrder s) with
    | error e => rfl
    | ok s1 =>
      show List.foldlM _ (revOrder s1) is_ = _
      rw [ih (revOrder s1), revOrder_revOrder]
      rfl

/-- C10: the two `TopoSort` implementations in the source — the variant
that prepends each finished node and the variant that appends each
finished node and reverses at the end — return identical results (the
same list, or the same cycle error) on every graph and every requested
table list. -/
theorem topoSortPrepend_eq_topoSort (graph : Graph) (inputTables : List String) :
    TopoSortPrepend graph inputTables = TopoSort graph inputTables := by
  show (do
      let s ← inputTables.foldlM
        (fun st node => visitPrepend graph inputTables
          ((nodeUniverse graph inputTables).length + 1) node false st)
        (⟨[], [], []⟩ : VisitState)
      Except.ok s.order) =
    (do
      let s ← inputTables.foldlM
        (fun st node => visit graph inputTables
          ((nodeUniverse graph inputTables).length + 1) node false st)
        (⟨[], [], []⟩ : VisitState)
      Except.ok s.order.reverse)
  rw [foldTopPrepend_eq graph inputTables
    ((nodeUniverse graph inputTables).length + 1) inputTables ⟨[], [], []⟩]
  have hinit : revOrder ⟨[], [], []⟩ = (⟨[], [], []⟩ : VisitState) := rfl
  rw [hinit]
  cases hA : inputTables.foldlM
      (fun st node => visit graph inputTables
        ((nodeUniverse graph inputTables).length + 1) node false st)
      (⟨[], [], []⟩ : VisitState) with
  | error e => rfl
  | ok s => rfl

end DB

namespace Parser

/-- `IsEval` from the parser: matches `\$eval\((.+)\)` anchored at both
ends on string values.  In Go's regexp the anchors are whole-text and `.`
does not match a newline, so the match succeeds exactly when the string
is `$eval(` ++ m ++ `)` with the greedy capture m (everything up to the
final `)`) nonempty and newline-free. -/
def IsEval : Value → Option String
  | .str s =>
    let cs := s.data
    let mid := (cs.drop 6).dropLast
    if cs.take 6 = "$eval(".data ∧ cs.getLast? = some ')' ∧ mid ≠ [] ∧
        ¬ (mid.contains '\n') then
      some (String.mk mid)
    else none
  | _ => none

/-- `row["id"]`: the identity-key lookup of `mergeRowsByID`. -/
def rowID (r : Row) : Option Value := r.lookup "id"

/-- Does a row carry identity `k`?  (Boolean form, for `List.filter`.) -/
def idMatches (k : Value) (r : Row) : Bool := decide (rowID r = some k)

/-- The `byID` accumulator of `mergeRowsByID`: Go's `map[any]map[string]any`,
modelled as an association list in which assigning an existing key
replaces its row in place and a new key is appended. -/
def upsertByID : List (Value × Row) → Value → Row → List (Value × Row)
  | [], k, r => [(k, r)]
  | (k0, r0) :: rest, k, r =>
    if k0 = k then (k0, r) :: rest else (k0, r0) :: upsertByID rest k r

/-- The body of `mergeRowsByID`'s row loop: a row with an `id` value is
stored in the `byID` map (replacing any earlier row with the same
identity), a row without one is appended to `noIDRows`. -/
def mergeStep (acc : List (Value × Row) × List Row) (row : Row) :
    List (Value × Row) × List Row :=
  match rowID row with
  | some id => (upsertByID acc.1 id row, acc.2)
  | none => (acc.1, acc.2 ++ [row])

/-- `mergeRowsByID` (variadic in Go): processes every slice's rows in
order through `mergeStep`, then emits the `byID` rows followed by the
rows without an identity. -/
def mergeRowsByID (slices : List (List Row)) : List Row :=
  let acc := slices.foldl (fun a rows => rows.foldl mergeStep a) ([], [])
  acc.1.map Prod.snd ++ acc.2

theorem lookup_upsert_self (m : List (Value × Row)) (k : Value) (r : Row) :
    (upsertByID m k r).lookup k = some r := by
  induction m with
  | nil => simp [upsertByID, List.lookup]
  | cons kr rest ih =>
    obtain ⟨k0, r0⟩ := kr
    by_cases h : k0 = k
    · subst h
      simp [upsertByID, List.lookup]
    · simp only [upsertByID, if_neg h, List.lookup]
      have : (k == k0) = false := beq_false_of_ne (fun he => h he.symm)
      rw [this]
      exact ih

theorem lookup_upsert_ne (m : List (Value × Row)) (k k2 : Value) (r : Row)
    (h : k2 ≠ k) : (upsertByID m k r).lookup k2 = m.lookup k2 := by
  induction m with
  | nil =>
    simp only [upsertByID, List.lookup, beq_false_of_ne h]
  | cons kr rest ih =>
    obtain ⟨k0, r0⟩ := kr
    by_cases h0 : k0 = k
    · subst h0
      simp only [upsertByID, if_pos rfl, List.lookup]
      rw [beq_false_of_ne h]
    · simp only [upsertByID, if_neg h0, List.lookup]
      cases he : (k2 == k0) with
      | true => rfl
      | false => exact ih

theorem keys_upsert (m : List (Value × Row)) (k : Value) (r : Row) :
    (upsertByID m k r).map Prod.fst = m.map Prod.fst ∨
    (upsertByID m k r).map Prod.fst = m.map Prod.fst ++ [k] := by
  induction m with
  | nil => right; simp [upsertByID]
  | cons kr rest ih =>
    obtain ⟨k0, r0⟩ := kr
    by_cases h : k0 = k
    · left; simp [upsertByID, if_pos h]
    · rcases ih with he | he
      · left; simp [upsertByID, if_neg h, he]
      · right; simp [upsertByID, if_neg h, he]

theorem mem_keys_upsert (m : List (Value × Row)) (k : Value) (r : Row) :
    ∀ k2, k2 ∈ (upsertByID m k r).map Prod.fst →
      k2 ∈ m.map Prod.fst ∨ k2 = k := by
  intro k2 h
  rcases keys_upsert m k r with he | he <;> rw [he] at h
  · exact Or.inl h
  · rcases List.mem_append.mp h with h' | h'
    · exact Or.inl h'
    · exact Or.inr (List.mem_singleton.mp h')

theorem keys_nodup_upsert (m : List (Value × Row)) (k : Value) (r : Row)
    (h : (m.map Prod.fst).Nodup) :
    ((upsertByID m k r).map Prod.fst).Nodup := by
  induction m with
  | nil => simp [upsertByID]
  | cons kr rest ih =>
    obtain ⟨k0, r0⟩ := kr
    simp only [List.map_cons, List.nodup_cons] at h
    by_cases hk : k0 = k
    · simp only [upsertByID, if_pos hk, List.map_cons, List.nodup_cons]
      exact h
    · simp only [upsertByID, if_neg hk, List.map_cons, List.nodup_cons]
      refine ⟨?_, ih h.2⟩
      intro hmem
      rcases mem_keys_upsert rest k r k0 hmem with h' | h'
      · exact h.1 h'
      · exact hk h'

theorem entries_upsert (m : List (Value × Row)) (k : Value) (r : Row)
    (hm : ∀ kr ∈ m, rowID kr.2 = some kr.1) (hr : rowID r = some k) :
    ∀ kr ∈ upsertByID m k r, rowID kr.2 = some kr.1 := by
  induction m with
  | nil =>
    intro kr hkr
    simp only [upsertByID, List.mem_singleton] at hkr
    subst hkr
    exact hr
  | cons kr0 rest ih =>
    obtain ⟨k0, r0⟩ := kr0
    intro kr hkr
    by_cases h : k0 = k
    · subst h
      simp only [upsertByID, if_pos rfl] at hkr
      rcases List.mem_cons.mp hkr with heq | hkr2
      · rw [heq]; exact hr
      · exact hm kr (List.mem_cons_of_mem _ hkr2)
    · simp only [upsertByID, if_neg h] at hkr
      rcases List.mem_cons.mp hkr with heq | hkr2
      · rw [heq]; exact hm (k0, r0) (List.mem_cons_self _ _)
      · exact ih (fun x hx => hm x (List.mem_cons_of_mem _ hx)) kr hkr2

/-- The last row with identity `k` among the rows processed so far. -/
def lastWithID (P : List Row) (k : Value) : Option Row :=
  (P.filter (idMatches k)).getLast?

/-- Invariant of the merge loop relative to the processed row list `P`:
the `byID` keys are distinct, every stored row carries its key as its
identity, each key maps to the last processed row with that identity,
and `noIDRows` is exactly the identity-less rows in processing order. -/
def MergeInv (P : List Row) (acc : List (Value × Row) × List Row) : Prop :=
  (acc.1.map Prod.fst).Nodup ∧
  (∀ kr ∈ acc.1, rowID kr.2 = some kr.1) ∧
  (∀ k, acc.1.lookup k = lastWithID P k) ∧
  acc.2 = P.filter (fun r => (rowID r).isNone)

theorem mergeStep_inv {P : List Row} {acc : List (Value × Row) × List Row}
    (row : Row) (h : MergeInv P acc) :
    MergeInv (P ++ [row]) (mergeStep acc row) := by
  obtain ⟨hnd, hid, hlk, hno⟩ := h
  cases hrow : rowID row with
  | none =>
    simp only [MergeInv, mergeStep, hrow]
    refine ⟨hnd, hid, ?_, ?_⟩
    · intro k
      rw [hlk k]
      unfold lastWithID
      rw [List.filter_append]
      have he : List.filter (idMatches k) [row] = [] := by
        simp [idMatches, hrow]
      rw [he, List.append_nil]
    · rw [List.filter_append, hno]
      have he : List.filter (fun r => (rowID r).isNone) [row] = [row] := by
        simp [hrow]
      rw [he]
  | some k0 =>
    simp only [MergeInv, mergeStep, hrow]
    refine ⟨keys_nodup_upsert _ _ _ hnd, entries_upsert _ _ _ hid hrow,
      ?_, ?_⟩
    · intro k
      by_cases hk : k = k0
      · subst hk
        rw [lookup_upsert_self]
        unfold lastWithID
        rw [List.filter_append]
        have he : List.filter (idMatches k) [row] = [row] := by
          simp [idMatches, hrow]
        rw [he, List.getLast?_append]
        simp
      · rw [lookup_upsert_ne _ _ _ _ hk, hlk k]
        unfold lastWithID
        rw [List.filter_append]
        have hm : idMatches k row = false := by
          simp only [idMatches, hrow, decide_eq_false_iff_not]
          exact fun h => hk (Option.some_injective _ h).symm
        have he : List.filter (idMatches k) [row] = [] := by
          simp [List.filter_cons, hm]
        rw [he, List.append_nil]
    · rw [List.filter_append, hno]
      have he : List.filter (fun r => (rowID r).isNone) [row] = [] := by
        simp [hrow]
      rw [he, List.append_nil]

theorem foldl_mergeStep_inv :
    ∀ (L P : List Row) (acc : List (Value × Row) × List Row),
      MergeInv P acc → MergeInv (P ++ L) (L.foldl mergeStep acc) := by
  intro L
  induction L with
  | nil => intro P acc h; simpa using h
  | cons row L ih =>
    intro P acc h
    rw [List.foldl_cons]
    have h2 := ih (P ++ [row]) _ (mergeStep_inv row h)
    rw [List.append_assoc] at h2
    simpa using h2

theorem mergeInv_init : MergeInv [] ([], []) := by
  refine ⟨List.nodup_nil, ?_, ?_, rfl⟩
  · intro kr hkr; simp at hkr
  · intro k; simp [List.lookup, lastWithID]

theorem map_snd_filter_eq_lookup :
    ∀ (m : List (Value × Row)), (m.map Prod.fst).Nodup →
      (∀ kr ∈ m, rowID kr.2 = some kr.1) → ∀ (k : Value),
      (m.map Prod.snd).filter (idMatches k) = (m.lookup k).toList := by
  intro m
  induction m with
  | nil => intro _ _ k; simp [List.lookup]
  | cons kr rest ih =>
    intro hnd hid k
    obtain ⟨k0, r0⟩ := kr
    simp only [List.map_cons, List.nodup_cons] at hnd
    have hr0 : rowID r0 = some k0 := hid (k0, r0) (List.mem_cons_self _ _)
    have hidr : ∀ kr ∈ rest, rowID kr.2 = some kr.1 :=
      fun x hx => hid x (List.mem_cons_of_mem _ hx)
    by_cases hk : k0 = k
    · subst hk
      have hmatch : idMatches k0 r0 = true := by simp [idMatches, hr0]
      have hrest : (rest.map Prod.snd).filter (idMatches k0) = [] := by
        rw [List.filter_eq_nil_iff]
        intro r hrm
        obtain ⟨kr2, hkr2, hsnd⟩ := List.mem_map.mp hrm
        have hkid := hidr kr2 hkr2
        intro hmatch2
        have : rowID r = some k0 := by
          have hdec : decide (rowID r = some k0) = true := hmatch2
          exact of_decide_eq_true hdec
        rw [hsnd] at hkid
        rw [hkid] at this
        have : kr2.1 = k0 := Option.some_injective _ this
        exact hnd.1 (this ▸ List.mem_map_of_mem Prod.fst hkr2)
      simp only [List.map_cons, List.filter_cons, hmatch, if_pos, List.lookup,
        beq_self_eq_true, hrest]
      rfl
    · have hmatch : idMatches k r0 = false := by
        simp only [idMatches, hr0, decide_eq_false_iff_not]
        exact fun h => hk (Option.some_injective _ h)
      have hbeq : (k == k0) = false :=
        beq_false_of_ne (fun he => hk he.symm)
      simp only [List.map_cons, List.filter_cons, hmatch, List.lookup, hbeq]
      exact ih hnd.2 hidr k

theorem getLast?_all_eq :
    ∀ (l : List Row) (x0 : Row), l ≠ [] → (∀ x ∈ l, x = x0) →
      l.getLast? = some x0 := by
  intro l
  induction l with
  | nil => intro x0 h; exact absurd rfl h
  | cons x xs ih =>
    intro x0 _ hall
    cases xs with
    | nil => simp [hall x (List.mem_cons_self _ _)]
    | cons y ys =>
      rw [List.getLast?_cons_cons]
      exact ih x0 (by simp) (fun z hz => hall z (List.mem_cons_of_mem _ hz))

/-- C4: merging two row lists by identity.  An identity value `k` present
in both inputs yields exactly one row with identity `k` in the output —
the second input's row — and the rows lacking an identity survive from
both inputs, concatenated in input order, never deduplicated. -/
theorem mergeRowsByID_spec (rows1 rows2 : List Row) (k : Value) (r2 : Row)
    (_h1 : ∃ r ∈ rows1, rowID r = some k)
    (h2 : r2 ∈ rows2) (hr2 : rowID r2 = some k)
    (huniq : ∀ r ∈ rows2, rowID r = some k → r = r2) :
    (mergeRowsByID [rows1, rows2]).filter (idMatches k) = [r2] ∧
    (mergeRowsByID [rows1, rows2]).filter (fun r => (rowID r).isNone) =
      rows1.filter (fun r => (rowID r).isNone) ++
        rows2.filter (fun r => (rowID r).isNone) := by
  have hfold : mergeRowsByID [rows1, rows2] =
      (let acc := (rows1 ++ rows2).foldl mergeStep ([], []);
       acc.1.map Prod.snd ++ acc.2) := by
    simp [mergeRowsByID, List.foldl_append]
  obtain ⟨hnd, hid, hlk, hno⟩ :=
    foldl_mergeStep_inv (rows1 ++ rows2) [] ([], []) mergeInv_init
  rw [List.nil_append] at *
  set acc := (rows1 ++ rows2).foldl mergeStep ([], []) with hacc
  constructor
  · rw [hfold, List.filter_append]
    have hnofilter : acc.2.filter (idMatches k) = [] := by
      rw [List.filter_eq_nil_iff]
      intro r hrm
      rw [hno] at hrm
      have hnn := (List.mem_filter.mp hrm).2
      simp only [Option.isNone_iff_eq_none] at hnn
      simp [idMatches, hnn]
    rw [hnofilter, List.append_nil,
      map_snd_filter_eq_lookup acc.1 hnd hid k, hlk k]
    have hfk : lastWithID (rows1 ++ rows2) k = some r2 := by
      unfold lastWithID
      rw [List.filter_append, List.getLast?_append]
      have hmem : r2 ∈ rows2.filter (idMatches k) :=
        List.mem_filter.mpr ⟨h2, by simp [idMatches, hr2]⟩
      have hne : rows2.filter (idMatches k) ≠ [] :=
        fun he => by rw [he] at hmem; exact List.not_mem_nil _ hmem
      have hall : ∀ x ∈ rows2.filter (idMatches k), x = r2 := by
        intro x hx
        obtain ⟨hxm, hxf⟩ := List.mem_filter.mp hx
        have hdec : decide (rowID x = some k) = true := hxf
        exact huniq x hxm (of_decide_eq_true hdec)
      rw [getLast?_all_eq _ r2 hne hall]
      rfl
    rw [hfk]
    rfl
  · rw [hfold, List.filter_append]
    have hbyid : (acc.1.map Prod.snd).filter
        (fun r => (rowID r).isNone) = [] := by
      rw [List.filter_eq_nil_iff]
      intro r hrm
      obtain ⟨kr2, hkr2, hsnd⟩ := List.mem_map.mp hrm
      have := hid kr2 hkr2
      rw [hsnd] at this
      simp [this]
    have hnofilter : acc.2.filter (fun r => (rowID r).isNone) = acc.2 := by
      rw [List.filter_eq_self]
      intro r hrm
      rw [hno] at hrm
      exact (List.mem_filter.mp hrm).2
    rw [hbyid, hnofilter, List.nil_append, hno, List.filter_append]

/-- Witness for C4 at concrete inputs: identity 1 present in both lists,
one identity-less row in each. -/
theorem mergeRowsByID_witness :
    (mergeRowsByID
        [[[("id", Value.int 1), ("name", Value.str "Base")],
          [("note", Value.str "x")]],
         [[("id", Value.int 1), ("name", Value.str "New")],
          [("note", Value.str "y")]]]).filter (idMatches (Value.int 1)) =
      [[("id", Value.int 1), ("name", Value.str "New")]] ∧
    (mergeRowsByID
        [[[("id", Value.int 1), ("name", Value.str "Base")],
          [("note", Value.str "x")]],
         [[("id", Value.int 1), ("name", Value.str "New")],
          [("note", Value.str "y")]]]).filter
        (fun r => (rowID r).isNone) =
      [[("note", Value.str "x")]] ++ [[("note", Value.str "y")]] := by
  have h := mergeRowsByID_spec
    [[("id", Value.int 1), ("name", Value.str "Base")],
     [("note", Value.str "x")]]
    [[("id", Value.int 1), ("name", Value.str "New")],
     [("note", Value.str "y")]]
    (Value.int 1)
    [("id", Value.int 1), ("name", Value.str "New")]
    (by decide) (by decide) (by decide) (by decide)
  exact ⟨h.1, by rw [h.2]; decide⟩

/-! Row templates (`parser.go`, V2 variant with `templates`). -/

/-- A row template `{table, name, extends?, fields}`.  The parent
reference is Go's `Extends` field (zero string when absent); it is named
`extendsName` here because `extends` is reserved in Lean. -/
structure TemplateDef where
  table : String
  name : String
  extendsName : String
  fields : Row
deriving DecidableEq, Repr

/-- `AllTemplates`: the per-table template registry
`map[string]map[string]TemplateDef` (a nil-able map of maps). -/
abbrev AllTemplates := List (String × List (String × TemplateDef))

/-- One Go map assignment `m[k] = v` on a row: replaces the binding in
place or appends a new one. -/
def setField : Row → String → Value → Row
  | [], k, v => [(k, v)]
  | (k0, v0) :: rest, k, v =>
    if k0 = k then (k0, v) :: rest else (k0, v0) :: setField rest k v

/-- `for k, v := range upd { base[k] = v }`: overlay `upd` onto `base`,
`upd` winning every tie. -/
def overlayRow (base upd : Row) : Row :=
  upd.foldl (fun b kv => setField b kv.1 kv.2) base

/-- `deepCopyMap`: a shallow copy of the field map; the identity in the
pure model. -/
def deepCopyMap (src : Row) : Row := src

/-- `resolveTemplateFields`: resolve a template's ancestor chain, root
fields first, each descendant's own fields overriding matching keys.
The Go code panics on a cyclic chain or a missing template; both are
modelled as errors.  `fuel` bounds the recursion; any fuel exceeding the
chain length reproduces the Go behaviour. -/
def resolveTemplateFields (allTemplates : AllTemplates) :
    Nat → String → String → List String → Except String Row
  | 0, _, _, _ => .error "fuel exhausted"
  | fuel+1, table, name, visited =>
    let key := table ++ ":" ++ name
    if key ∈ visited then .error ("cyclic extends in template: " ++ key)
    else
      match (allTemplates.lookup table).bind (fun m => m.lookup name) with
      | none =>
        .error ("template not found: " ++ name ++ " for table: " ++ table)
      | some tmpl =>
        if tmpl.extendsName ≠ "" then
          (resolveTemplateFields allTemplates fuel table tmpl.extendsName
              (key :: visited)).map
            (fun base => overlayRow base tmpl.fields)
        else
          .ok (overlayRow [] tmpl.fields)

/-- `resolveExtendsV2`: a row that names a template receives the
template's fully resolved field chain as its base, the row's own fields
overriding every tie, with the `extends` reference key itself skipped;
a row with no string `extends` value, or a table with no registered
templates, is copied verbatim. -/
def resolveExtendsV2 (allTemplates : AllTemplates) (fuel : Nat)
    (row : Row) (table : String) : Except String Row :=
  match row.lookup "extends" with
  | some (.str ext) =>
    if (allTemplates.lookup table).isNone then .ok (deepCopyMap row)
    else
      (resolveTemplateFields allTemplates fuel table ext []).map
        (fun base =>
          overlayRow (deepCopyMap base)
            (row.filter (fun kv => kv.1 ≠ "extends")))
  | _ => .ok (deepCopyMap row)

/-- C5: resolving a row that extends the last template of a 3-level chain
produces exactly the overlay of the chain — the root ancestor's fields
first, each descendant template's own fields overriding matching keys,
the row's own explicit fields (with the `extends` reference key skipped)
winning every tie — and resolution is associative along the chain:
resolving the 3-level chain equals resolving the 2-level parent chain
and then overlaying the child template's own fields. -/
theorem resolveExtends_chain_overlay (reg : AllTemplates)
    (m : List (String × TemplateDef)) (t nA nB nC : String)
    (A B C : TemplateDef) (row : Row) (fuel : Nat)
    (hreg : reg.lookup t = some m)
    (hA : m.lookup nA = some A) (hAe : A.extendsName = "")
    (hB : m.lookup nB = some B) (hBe : B.extendsName = nA)
    (hC : m.lookup nC = some C) (hCe : C.extendsName = nB)
    (hnA : nA ≠ "") (hnB : nB ≠ "")
    (hkAB : t ++ ":" ++ nA ≠ t ++ ":" ++ nB)
    (hkAC : t ++ ":" ++ nA ≠ t ++ ":" ++ nC)
    (hkBC : t ++ ":" ++ nB ≠ t ++ ":" ++ nC)
    (hrow : row.lookup "extends" = some (.str nC)) :
    resolveExtendsV2 reg (fuel+3) row t =
      .ok (overlayRow
            (overlayRow (overlayRow (overlayRow [] A.fields) B.fields)
              C.fields)
            (row.filter (fun kv => kv.1 ≠ "extends"))) ∧
    resolveTemplateFields reg (fuel+3) t nC [] =
      (resolveTemplateFields reg (fuel+2) t nB []).map
        (fun base => overlayRow base C.fields) := by
  have hresA : ∀ (f : Nat) (vis : List String), (t ++ ":" ++ nA) ∉ vis →
      resolveTemplateFields reg (f+1) t nA vis =
        .ok (overlayRow [] A.fields) := by
    intro f vis hnin
    simp [resolveTemplateFields, hnin, hreg, hA, hAe]
  have hresB : ∀ (f : Nat) (vis : List String), (t ++ ":" ++ nB) ∉ vis →
      (t ++ ":" ++ nA) ∉ ((t ++ ":" ++ nB) :: vis) →
      resolveTemplateFields reg (f+2) t nB vis =
        .ok (overlayRow (overlayRow [] A.fields) B.fields) := by
    intro f vis hnin hninA
    have hunf : resolveTemplateFields reg (f+2) t nB vis =
        (resolveTemplateFields reg (f+1) t nA
            ((t ++ ":" ++ nB) :: vis)).map
          (fun base => overlayRow base B.fields) := by
      simp [resolveTemplateFields, hnin, hreg, hB, hBe, hnA]
    rw [hunf, hresA f _ hninA]
    rfl
  have hresC : ∀ (f : Nat) (vis : List String), (t ++ ":" ++ nC) ∉ vis →
      (t ++ ":" ++ nB) ∉ ((t ++ ":" ++ nC) :: vis) →
      (t ++ ":" ++ nA) ∉ ((t ++ ":" ++ nB) :: (t ++ ":" ++ nC) :: vis) →
      resolveTemplateFields reg (f+3) t nC vis =
        .ok (overlayRow (overlayRow (overlayRow [] A.fields) B.fields)
              C.fields) := by
    intro f vis hnin hninB hninA
    have hunf : resolveTemplateFields reg (f+3) t nC vis =
        (resolveTemplateFields reg (f+2) t nB
            ((t ++ ":" ++ nC) :: vis)).map
          (fun base => overlayRow base C.fields) := by
      simp [resolveTemplateFields, hnin, hreg, hC, hCe, hnB]
    rw [hunf, hresB f _ hninB hninA]
    rfl
  have hBC : (t ++ ":" ++ nB) ∉ [t ++ ":" ++ nC] := by
    simp [hkBC]
  have hABC : (t ++ ":" ++ nA) ∉
      [t ++ ":" ++ nB, t ++ ":" ++ nC] := by
    simp [hkAB, hkAC]
  constructor
  · have hiso : (reg.lookup t).isNone = false := by rw [hreg]; rfl
    simp only [resolveExtendsV2, hrow, hiso, Bool.false_eq_true, if_neg,
      deepCopyMap]
    rw [hresC fuel [] (by simp) hBC hABC]
    rfl
  · rw [hresC fuel [] (by simp) hBC hABC,
      hresB fuel [] (by simp) (by simpa using hkAB.symm ∘ Eq.symm)]
    rfl

/-- Witness for C5 at a concrete three-level chain
(base ← admin ← superadmin, the scenario of the repository's own test). -/
theorem resolveExtends_chain_witness :
    resolveExtendsV2
        [("public.users",
          [("base", ⟨"public.users", "base", "",
             [("name", Value.str "Base User")]⟩),
           ("admin", ⟨"public.users", "admin", "base",
             [("name", Value.str "Admin User"),
              ("is_admin", Value.bool true)]⟩),
           ("superadmin", ⟨"public.users", "superadmin", "admin",
             [("name", Value.str "Super Admin"),
              ("super", Value.bool true)]⟩)])]
        3
        [("id", Value.int 1), ("extends", Value.str "superadmin"),
         ("email", Value.str "super@example.com")]
        "public.users" =
      .ok (overlayRow
            (overlayRow
              (overlayRow (overlayRow [] [("name", Value.str "Base User")])
                [("name", Value.str "Admin User"),
                 ("is_admin", Value.bool true)])
              [("name", Value.str "Super Admin"),
               ("super", Value.bool true)])
            ([("id", Value.int 1), ("extends", Value.str "superadmin"),
              ("email", Value.str "super@example.com")].filter
              (fun kv => kv.1 ≠ "extends"))) := by
  exact (resolveExtends_chain_overlay
    [("public.users",
      [("base", ⟨"public.users", "base", "",
         [("name", Value.str "Base User")]⟩),
       ("admin", ⟨"public.users", "admin", "base",
         [("name", Value.str "Admin User"),
          ("is_admin", Value.bool true)]⟩),
       ("superadmin", ⟨"public.users", "superadmin", "admin",
         [("name", Value.str "Super Admin"),
          ("super", Value.bool true)]⟩)])]
    [("base", ⟨"public.users", "base", "",
       [("name", Value.str "Base User")]⟩),
     ("admin", ⟨"public.users", "admin", "base",
       [("name", Value.str "Admin User"),
        ("is_admin", Value.bool true)]⟩),
     ("superadmin", ⟨"public.users", "superadmin", "admin",
       [("name", Value.str "Super Admin"),
        ("super", Value.bool true)]⟩)]
    "public.users" "base" "admin" "superadmin"
    ⟨"public.users", "base", "", [("name", Value.str "Base User")]⟩
    ⟨"public.users", "admin", "base",
     [("name", Value.str "Admin User"), ("is_admin", Value.bool true)]⟩
    ⟨"public.users", "superadmin", "admin",
     [("name", Value.str "Super Admin"), ("super", Value.bool true)]⟩
    [("id", Value.int 1), ("extends", Value.str "superadmin"),
     ("email", Value.str "super@example.com")]
    0
    (by decide) (by decide) (by decide) (by decide) (by decide) (by decide)
    (by decide) (by decide) (by decide) (by decide) (by decide) (by decide)
    (by decide)).1

/-! Multi-file inclusion (`ParseFileWithInclude`). -/

/-- A parsed fixture document (`rawFixtureFile` after normalizing the
`include` field to a path list): the include targets in declaration
order and the inline table→rows content.  Paths in the model are
canonical absolute strings, so `filepath.Abs` is the identity and an
include path is used as given (Go's absolute-include branch). -/
structure RawDoc where
  includePaths : List String
  tables : List (String × List Row)
deriving Repr

/-- The file system visible to the resolver: canonical absolute path →
parsed document. -/
abbrev FileSystem := List (String × RawDoc)

/-- The resolver's accumulated dataset: table → merged rows. -/
abbrev Fixtures := List (String × List Row)

/-- `result[table]` (a missing key is the nil slice). -/
def getTable (res : Fixtures) (t : String) : List Row :=
  (res.lookup t).getD []

/-- `result[table] = rows`: map assignment on the accumulated dataset. -/
def setTable : Fixtures → String → List Row → Fixtures
  | [], t, rows => [(t, rows)]
  | (t0, r0) :: rest, t, rows =>
    if t0 = t then (t0, rows) :: rest else (t0, r0) :: setTable rest t rows

/-- `for table, rows := range src { result[table] =
mergeRowsByID(result[table], rows) }`. -/
def mergeTables (res : Fixtures) (src : Fixtures) : Fixtures :=
  src.foldl
    (fun r tr => setTable r tr.1 (mergeRowsByID [getTable r tr.1, tr.2])) res

/-- `ParseFileWithInclude`: canonicalize the path, fail if it is in the
visited set, otherwise mark it visited, read and parse the document,
resolve its includes in declaration order (the `foldlM`), then merge the
document's own content last.  The visited map is shared by reference in
Go, so the model threads the updated set through and returns it.  `fuel`
bounds the include depth (Go's recursion; any fuel exceeding the depth
reproduces its behaviour). -/
def ParseFileWithInclude (fs : FileSystem) :
    Nat → String → List String → Except String (Fixtures × List String)
  | 0, _, _ => .error "fuel exhausted"
  | fuel+1, path, visited =>
    let absPath := path
    if absPath ∈ visited then
      .error ("cyclic include detected: " ++ absPath)
    else
      match fs.lookup path with
      | none =>
        .error ("read file: open " ++ path ++ ": no such file or directory")
      | some raw => do
        let acc ← raw.includePaths.foldlM
          (fun acc inc => do
            let out ← ParseFileWithInclude fs fuel inc acc.2
            pure (mergeTables acc.1 out.1, out.2))
          (([] : Fixtures), absPath :: visited)
        .ok (mergeTables acc.1 raw.tables, acc.2)

/-- `ParseFile`: a fresh resolution with an empty visited set.  The fuel
`fs.length + 1` always suffices: each recursion level permanently marks
a distinct existing document as visited. -/
def ParseFile (fs : FileSystem) (path : String) :
    Except String (Fixtures × List String) :=
  ParseFileWithInclude fs (fs.length + 1) path []

/-- Counterexample to C7: a top-level document with two sibling includes
that each include a common third document.  The claim says this resolves
successfully; the code reports an include cycle, because the visited set
is never unmarked and is shared across the whole resolution. -/
theorem parseFile_diamond_cex :
    ParseFile
      [("/d/main.yml", ⟨["/d/b.yml", "/d/c.yml"], []⟩),
       ("/d/b.yml", ⟨["/d/common.yml"], []⟩),
       ("/d/c.yml", ⟨["/d/common.yml"], []⟩),
       ("/d/common.yml", ⟨[], [("public.users", [[("id", Value.int 1)]])]⟩)]
      "/d/main.yml" =
    .error ("cyclic include detected: /d/common.yml") := by
  rfl

/-- The visited set grows monotonically through the include loop of
`ParseFileWithInclude` (the visited map is shared, never unmarked). -/
theorem foldIncludes_visited (fs : FileSystem) (n : Nat)
    (hp : ∀ (path : String) (visited : List String)
      (out : Fixtures × List String),
      ParseFileWithInclude fs n path visited = .ok out →
      path ∈ out.2 ∧ ∀ p ∈ visited, p ∈ out.2) :
    ∀ (incs : List String) (acc out : Fixtures × List String),
      incs.foldlM
        (fun acc inc => do
          let out ← ParseFileWithInclude fs n inc acc.2
          pure (mergeTables acc.1 out.1, out.2)) acc = .ok out →
      ∀ p ∈ acc.2, p ∈ out.2 := by
  intro incs
  induction incs with
  | nil =>
    intro acc out h p hpv
    rw [List.foldlM_nil] at h
    cases h
    exact hpv
  | cons inc rest ih =>
    intro acc out h p hpv
    simp only [List.foldlM_cons] at h
    cases hv : ParseFileWithInclude fs n inc acc.2 with
    | error e =>
      rw [hv, error_bind, error_bind] at h
      cases h
    | ok mid =>
      rw [hv, ok_bind, pure_bind_except] at h
      exact ih _ out h p ((hp inc acc.2 mid hv).2 p hpv)

/-- C7 (amended): a document whose canonicalized path is already in the
visited set fails with the include-cycle error; and the visited set is
never unmarked — on success every previously visited path, and the
document's own path, remain in the returned visited set — so the set is
shared across the entire top-level resolution (sibling includes of a
common document collide); only separate top-level `ParseFile` calls
start from fresh visited sets. -/
theorem parseFileWithInclude_visited_spec (fs : FileSystem) :
    (∀ (n : Nat) (path : String) (visited : List String),
      path ∈ visited →
      ParseFileWithInclude fs (n+1) path visited =
        .error ("cyclic include detected: " ++ path)) ∧
    (∀ (n : Nat) (path : String) (visited : List String)
      (out : Fixtures × List String),
      ParseFileWithInclude fs n path visited = .ok out →
      path ∈ out.2 ∧ ∀ p ∈ visited, p ∈ out.2) := by
  constructor
  · intro n path visited h
    simp [ParseFileWithInclude, h]
  · intro n
    induction n using Nat.strong_induction_on with
    | _ n IH =>
      intro path visited out h
      cases n with
      | zero => simp [ParseFileWithInclude] at h
      | succ n0 =>
        by_cases hvis : path ∈ visited
        · rw [ParseFileWithInclude, if_pos hvis] at h
          cases h
        · cases hl : fs.lookup path with
          | none =>
            have hunf : ParseFileWithInclude fs (n0+1) path visited =
                .error ("read file: open " ++ path ++
                  ": no such file or directory") := by
              simp [ParseFileWithInclude, hvis, hl]
            rw [hunf] at h
            cases h
          | some raw =>
            have hunf : ParseFileWithInclude fs (n0+1) path visited = (do
                let acc ← raw.includePaths.foldlM
                  (fun acc inc => do
                    let out ← ParseFileWithInclude fs n0 inc acc.2
                    pure (mergeTables acc.1 out.1, out.2))
                  (([] : Fixtures), path :: visited)
                Except.ok (mergeTables acc.1 raw.tables, acc.2)) := by
              simp [ParseFileWithInclude, hvis, hl]
            rw [hunf] at h
            cases hmid : raw.includePaths.foldlM
                (fun acc inc => do
                  let out ← ParseFileWithInclude fs n0 inc acc.2
                  pure (mergeTables acc.1 out.1, out.2))
                (([] : Fixtures), path :: visited) with
            | error e =>
              rw [hmid, error_bind] at h
              cases h
            | ok mid =>
              rw [hmid, ok_bind] at h
              cases h
              have hQ := foldIncludes_visited fs n0
                (fun p2 v2 o2 hh => IH n0 (Nat.lt_succ_self _) p2 v2 o2 hh)
                raw.includePaths (([] : Fixtures), path :: visited) mid hmid
              exact ⟨hQ path (List.mem_cons_self _ _),
                fun p hpv => hQ p (List.mem_cons_of_mem _ hpv)⟩

/-- Witness for C7 (amended) at concrete inputs: a path already visited
errors, and a successful resolution keeps old paths and adds its own. -/
theorem parseFileWithInclude_visited_witness :
    ParseFileWithInclude [("/d/a.yml", ⟨[], []⟩)] (0+1) "/d/b.yml"
        ["/d/b.yml"] =
      .error ("cyclic include detected: " ++ "/d/b.yml") ∧
    ("/d/a.yml" ∈ (([], ["/d/a.yml", "/x"]) :
        Fixtures × List String).2 ∧
      ∀ p ∈ ["/x"], p ∈ (([], ["/d/a.yml", "/x"]) :
        Fixtures × List String).2) := by
  refine ⟨(parseFileWithInclude_visited_spec
      [("/d/a.yml", ⟨[], []⟩)]).1 0 "/d/b.yml" ["/d/b.yml"]
      (List.mem_cons_self _ _), ?_⟩
  exact (parseFileWithInclude_visited_spec [("/d/a.yml", ⟨[], []⟩)]).2
    1 "/d/a.yml" ["/x"] ([], ["/d/a.yml", "/x"]) rfl

end Parser

namespace Loader

/-! `convertIntervalSyntax` (loader.go): rewrite Postgres interval
literals `INTERVAL '<n> <unit>'` to MySQL's `INTERVAL <n> <UNIT>` by
replacing every match of the regular expression
`INTERVAL\s+'(\d+)\s+([^']+)'` left to right. -/

/-- Go's `\s` character class: `[\t\n\f\r ]`. -/
def goSpace (c : Char) : Bool :=
  (c == ' ') || (c == '\t') || (c == '\n') || (c == '\x0c') || (c == '\r')

/-- Attempt to match `INTERVAL\s+'(\d+)\s+([^']+)'` at the head of the
character list, with Go's leftmost-first greedy semantics: after the
digits, `\s+` takes as many whitespace characters as it can while
leaving at least one character for `[^']+`, which then extends to the
closing quote.  Returns the two submatches (number, unit) and the
characters following the match. -/
def matchIntervalAt : List Char → Option (List Char × List Char × List Char)
  | 'I' :: 'N' :: 'T' :: 'E' :: 'R' :: 'V' :: 'A' :: 'L' :: rest =>
    let ws := rest.takeWhile goSpace
    if ws.isEmpty then none
    else
      match rest.drop ws.length with
      | '\'' :: r2 =>
        let digits := r2.takeWhile Char.isDigit
        if digits.isEmpty then none
        else
          let r3 := r2.drop digits.length
          let span := r3.takeWhile (fun c => c != '\'')
          match r3.drop span.length with
          | '\'' :: restAfter =>
            let wsp := span.takeWhile goSpace
            if wsp.isEmpty then none
            else if wsp.length = span.length then
              if 2 ≤ span.length then
                some (digits, span.drop (span.length - 1), restAfter)
              else none
            else
              some (digits, span.drop wsp.length, restAfter)
          | _ => none
      | _ => none
  | _ => none

theorem matchIntervalAt_shorter :
    ∀ {cs digits unit rest : List Char},
      matchIntervalAt cs = some (digits, unit, rest) →
      rest.length < cs.length := by
  intro cs digits unit rest h
  unfold matchIntervalAt at h
  split at h
  next tl =>
    simp only at h
    split at h
    · exact absurd h (by simp)
    · rename_i hws
      split at h
      next r2 heq2 =>
        split at h
        · exact absurd h (by simp)
        · rename_i hdig
          split at h
          next restAfter heq3 =>
            have h2 : r2.length + 1 ≤ tl.length := by
              have hh := congrArg List.length heq2
              rw [List.length_drop, List.length_cons] at hh
              omega
            have h3 : restAfter.length + 1 ≤
                (r2.drop (r2.takeWhile Char.isDigit).length).length := by
              have hh := congrArg List.length heq3
              rw [List.length_drop, List.length_cons] at hh
              omega
            have h4 : (r2.drop (r2.takeWhile Char.isDigit).length).length
                ≤ r2.length := by
              rw [List.length_drop]; omega
            split at h
            · exact absurd h (by simp)
            · split at h
              · split at h
                · injection h with htup
                  injection htup with hd hur
                  injection hur with hu hr
                  subst hr
                  simp only [List.length_cons]
                  omega
                · exact absurd h (by simp)
              · injection h with htup
                injection htup with hd hur
                injection hur with hu hr
                subst hr
                simp only [List.length_cons]
                omega
          next => exact absurd h (by simp)
      next => exact absurd h (by simp)
  next => exact absurd h (by simp)

/-- `strings.ToUpper` on the unit submatch (interval units are ASCII). -/
def upperChars (cs : List Char) : List Char := cs.map Char.toUpper

/-- The replacement emitted for one match: `INTERVAL <n> <UNIT>`. -/
def intervalReplacement (digits unit : List Char) : List Char :=
  "INTERVAL ".toList ++ digits ++ (' ' :: upperChars unit)

/-- `ReplaceAllStringFunc`'s scan: at each position, emit the replacement
and continue after the match, or copy one character and move on.  `fuel`
bounds the recursion; `cs.length` always suffices because every match
consumes at least one character. -/
def convertCharsF : Nat → List Char → List Char
  | 0, cs => cs
  | fuel+1, cs =>
    match matchIntervalAt cs with
    | some (digits, unit, rest) =>
      intervalReplacement digits unit ++ convertCharsF fuel rest
    | none =>
      match cs with
      | [] => []
      | c :: cs2 => c :: convertCharsF fuel cs2

/-- The scan with its canonical (sufficient) fuel. -/
def convertChars (cs : List Char) : List Char := convertCharsF cs.length cs

/-- `convertIntervalSyntax` from loader.go. -/
def convertIntervalSyntax (s : String) : String :=
  String.mk (convertChars s.data)

theorem convertCharsF_fuel :
    ∀ (fuel : Nat) (cs : List Char), cs.length ≤ fuel →
      convertCharsF fuel cs = convertChars cs := by
  intro fuel
  induction fuel using Nat.strong_induction_on with
  | _ fuel IH =>
    intro cs hle
    match fuel with
    | 0 =>
      have hnil : cs = [] := List.eq_nil_of_length_eq_zero
        (Nat.le_zero.mp hle)
      subst hnil
      rfl
    | fuel+1 =>
      cases hm : matchIntervalAt cs with
      | some t =>
        obtain ⟨d, u, rest⟩ := t
        have hlt := matchIntervalAt_shorter hm
        cases hcs : cs with
        | nil => rw [hcs] at hm; exact absurd hm (by simp [matchIntervalAt])
        | cons c cs2 =>
          subst hcs
          show (match matchIntervalAt (c :: cs2) with
            | some (digits, unit, rest) =>
              intervalReplacement digits unit ++ convertCharsF fuel rest
            | none =>
              match c :: cs2 with
              | [] => []
              | c :: cs2 => c :: convertCharsF fuel cs2) = _
          rw [hm]
          unfold convertChars
          show _ = (match matchIntervalAt (c :: cs2) with
            | some (digits, unit, rest) =>
              intervalReplacement digits unit ++ convertCharsF cs2.length rest
            | none =>
              match c :: cs2 with
              | [] => []
              | c :: cs2 => c :: convertCharsF cs2.length cs2)
          rw [hm]
          have hr1 : convertCharsF fuel rest = convertChars rest := by
            apply IH fuel (Nat.lt_succ_self _)
            simp only [List.length_cons] at hle hlt
            omega
          have hr2 : convertCharsF cs2.length rest = convertChars rest := by
            apply IH cs2.length
            · simp only [List.length_cons] at hle
              omega
            · simp only [List.length_cons] at hlt
              omega
          show intervalReplacement d u ++ convertCharsF fuel rest =
            intervalReplacement d u ++ convertCharsF cs2.length rest
          rw [hr1, hr2]
      | none =>
        cases cs with
        | nil => rfl
        | cons c cs2 =>
          show (match matchIntervalAt (c :: cs2) with
            | some (digits, unit, rest) =>
              intervalReplacement digits unit ++ convertCharsF fuel rest
            | none =>
              match c :: cs2 with
              | [] => []
              | c :: cs2 => c :: convertCharsF fuel cs2) = _
          rw [hm]
          unfold convertChars
          show _ = (match matchIntervalAt (c :: cs2) with
            | some (digits, unit, rest) =>
              intervalReplacement digits unit ++ convertCharsF cs2.length rest
            | none =>
              match c :: cs2 with
              | [] => []
              | c :: cs2 => c :: convertCharsF cs2.length cs2)
          rw [hm]
          have hr : convertCharsF fuel cs2 = convertChars cs2 := by
            apply IH fuel (Nat.lt_succ_self _)
            simp only [List.length_cons] at hle
            omega
          show c :: convertCharsF fuel cs2 = c :: convertCharsF cs2.length cs2
          have hr2 : convertCharsF cs2.length cs2 = convertChars cs2 :=
            IH cs2.length (by simp only [List.length_cons] at hle; omega)
              cs2 (Nat.le_refl _)
          rw [hr, hr2]

theorem convertChars_match {cs d u rest : List Char}
    (h : matchIntervalAt cs = some (d, u, rest)) :
    convertChars cs = intervalReplacement d u ++ convertChars rest := by
  cases hcs : cs with
  | nil => rw [hcs] at h; exact absurd h (by simp [matchIntervalAt])
  | cons c cs2 =>
    subst hcs
    have hlt := matchIntervalAt_shorter h
    unfold convertChars
    show (match matchIntervalAt (c :: cs2) with
      | some (digits, unit, rest) =>
        intervalReplacement digits unit ++ convertCharsF cs2.length rest
      | none =>
        match c :: cs2 with
        | [] => []
        | c :: cs2 => c :: convertCharsF cs2.length cs2) = _
    rw [h]
    show intervalReplacement d u ++ convertCharsF cs2.length rest = _
    rw [convertCharsF_fuel cs2.length rest
      (by simp only [List.length_cons] at hlt; omega)]
    rfl

theorem convertChars_nomatch {c : Char} {cs2 : List Char}
    (h : matchIntervalAt (c :: cs2) = none) :
    convertChars (c :: cs2) = c :: convertChars cs2 := by
  unfold convertChars
  show (match matchIntervalAt (c :: cs2) with
    | some (digits, unit, rest) =>
      intervalReplacement digits unit ++ convertCharsF cs2.length rest
    | none =>
      match c :: cs2 with
      | [] => []
      | c :: cs2 => c :: convertCharsF cs2.length cs2) = _
  rw [h]

theorem takeWhile_append_all {p : Char → Bool} :
    ∀ (xs ys : List Char), (∀ x ∈ xs, p x = true) →
      (xs ++ ys).takeWhile p = xs ++ ys.takeWhile p := by
  intro xs
  induction xs with
  | nil => intro ys _; rfl
  | cons x xs ih =>
    intro ys h
    rw [List.cons_append,
      List.takeWhile_cons_of_pos (h x (List.mem_cons_self _ _)),
      ih ys (fun y hy => h y (List.mem_cons_of_mem _ hy)), List.cons_append]

/-- The regular expression matches the canonical interval literal
`INTERVAL '<n> <unit>'` (digits `n` nonempty, unit nonempty, quote-free,
not starting with whitespace), capturing `n` and the unit and consuming
through the closing quote. -/
theorem matchIntervalAt_literal (n u' : List Char) (u0 : Char)
    (post : List Char)
    (hn : n ≠ []) (hnd : ∀ c ∈ n, c.isDigit = true)
    (huq : ∀ c ∈ u0 :: u', (c != '\'') = true)
    (hu0 : goSpace u0 = false) :
    matchIntervalAt
      ('I' :: 'N' :: 'T' :: 'E' :: 'R' :: 'V' :: 'A' :: 'L' :: ' ' :: '\'' ::
        (n ++ ' ' :: ((u0 :: u') ++ '\'' :: post))) =
      some (n, u0 :: u', post) := by
  have hws : (' ' :: '\'' ::
      (n ++ ' ' :: ((u0 :: u') ++ '\'' :: post))).takeWhile goSpace =
      [' '] := by
    rw [List.takeWhile_cons_of_pos (by decide),
      List.takeWhile_cons_of_neg (by decide)]
  have hdig : (n ++ ' ' :: ((u0 :: u') ++ '\'' :: post)).takeWhile
      Char.isDigit = n := by
    rw [takeWhile_append_all n _ hnd,
      List.takeWhile_cons_of_neg (by decide), List.append_nil]
  have hdrop : (n ++ ' ' :: ((u0 :: u') ++ '\'' :: post)).drop n.length =
      ' ' :: ((u0 :: u') ++ '\'' :: post) := List.drop_left n _
  have hspan : (' ' :: ((u0 :: u') ++ '\'' :: post)).takeWhile
      (fun c => c != '\'') = ' ' :: (u0 :: u') := by
    rw [List.takeWhile_cons_of_pos (by decide),
      takeWhile_append_all (u0 :: u') _ huq,
      List.takeWhile_cons_of_neg (by decide), List.append_nil]
  have hdrop2 : (' ' :: ((u0 :: u') ++ '\'' :: post)).drop
      (' ' :: (u0 :: u')).length = '\'' :: post := by
    have he : (' ' :: ((u0 :: u') ++ '\'' :: post)) =
        (' ' :: (u0 :: u')) ++ '\'' :: post := by simp
    rw [he]
    exact List.drop_left _ _
  have hwsp : (' ' :: (u0 :: u')).takeWhile goSpace = [' '] := by
    rw [List.takeWhile_cons_of_pos (by decide),
      List.takeWhile_cons_of_neg (by simp [hu0])]
  unfold matchIntervalAt
  simp only [hws, hdig, hspan]
  rw [List.length_singleton]
  simp only [List.drop_one, List.tail_cons, hdig]
  simp only [hdrop, hspan, hdrop2, hwsp]
  have hne : n.isEmpty = false := by
    cases n with
    | nil => exact absurd rfl hn
    | cons a l => rfl
  simp [hne]

/-- A string in which no position starts a match passes through the
scanner unchanged. -/
theorem convertChars_id :
    ∀ (cs : List Char), (∀ i, matchIntervalAt (cs.drop i) = none) →
      convertChars cs = cs := by
  intro cs
  induction cs with
  | nil => intro _; rfl
  | cons c cs2 ih =>
    intro h
    rw [convertChars_nomatch (h 0)]
    congr 1
    apply ih
    intro i
    have h2 := h (i+1)
    simpa using h2

/-- The scanner copies a match-free prefix verbatim and continues. -/
theorem convertChars_pre :
    ∀ (pre mid : List Char),
      (∀ i, i < pre.length → matchIntervalAt ((pre ++ mid).drop i) = none) →
      convertChars (pre ++ mid) = pre ++ convertChars mid := by
  intro pre
  induction pre with
  | nil => intro mid _; rfl
  | cons c pre2 ih =>
    intro mid h
    rw [List.cons_append,
      convertChars_nomatch (by simpa using h 0 (by simp))]
    rw [show (c :: pre2) ++ mid = c :: (pre2 ++ mid) from rfl] at h
    rw [ih mid (fun i hi => by simpa using h (i+1) (by simpa using hi))]
    rfl

/-! The transactional load orchestrator (loader.go) and the dialect
adapters (database.go), embedded as trace-producing pure functions: the
outcome of every database call is supplied by a `TxEnv`, and every
database interaction is recorded as an event. -/

/-- Which `Database` implementation the loader was built with. -/
inductive DBKind where
  | postgres
  | mysql
deriving DecidableEq, Repr

/-- One database interaction inside the transaction. -/
inductive Ev where
  | exec (stmt : String)
  | execArgs (stmt : String) (args : List Value)
  | query (stmt : String)
  | queryCols (stmt : String)
  | rollback
  | commit
deriving DecidableEq, Repr

/-- The environment: what each database call returns. -/
structure TxEnv where
  execRes : String → Except String Unit
  execArgsRes : String → List Value → Except String Unit
  queryRes : String → Except String Value
  queryColsRes : String → Except String (List String)
  beginRes : Except String Unit
  commitRes : Except String Unit

/-- The outcome of a piece of the transaction: the statements executed
against the database, the dry-run log lines rendered, and the result. -/
structure TxResult (α : Type) where
  events : List Ev
  logs : List String
  result : Except String α

def tpure {α : Type} (a : α) : TxResult α := ⟨[], [], .ok a⟩

def tbind {α β : Type} (a : TxResult α) (k : α → TxResult β) : TxResult β :=
  match a.result with
  | .error e => ⟨a.events, a.logs, .error e⟩
  | .ok v =>
    let b := k v
    ⟨a.events ++ b.events, a.logs ++ b.logs, b.result⟩

/-- Execute a statement (`tx.Exec` and friends). -/
def texec (env : TxEnv) (q : String) : TxResult Unit :=
  ⟨[.exec q], [], env.execRes q⟩

/-- A dry-run log line (`log.Println`). -/
def tlog (msg : String) : TxResult Unit := ⟨[], [msg], .ok ()⟩

def tmapError {α : Type} (a : TxResult α) (f : String → String) :
    TxResult α :=
  match a.result with
  | .error e => ⟨a.events, a.logs, .error (f e)⟩
  | .ok _ => a

/-- Go's `%q` on a table name or expression (no escaping needed for the
names that occur). -/
def quoteGo (s : String) : String := "\"" ++ s ++ "\""

/-- `%v` rendering of the insert parameters for the dry-run log. -/
def renderValue : Value → String
  | .str s => s
  | .int i => toString i
  | .bool b => cond b "true" "false"
  | .null => "<nil>"

def renderVals (vs : List Value) : String :=
  "[" ++ String.intercalate " " (vs.map renderValue) ++ "]"

/-- `strings.Split` on the `.` separator (character-level recursion). -/
def splitDotAux : List Char → List Char → List String
  | [], acc => [String.mk acc.reverse]
  | c :: cs, acc =>
    if c = '.' then String.mk acc.reverse :: splitDotAux cs []
    else splitDotAux cs (c :: acc)

def splitDot (s : String) : List String := splitDotAux s.data []

/-- `strings.Split(schemaTable, ".")`, last element: strip the schema. -/
def lastPart (s : String) : String := (splitDot s).getLastD ""

/-- `Database.Placeholder`: positional `$i` for Postgres, `?` for MySQL. -/
def Placeholder : DBKind → Nat → String
  | .postgres, i => "$" ++ toString i
  | .mysql, _ => "?"

/-- The single Postgres truncate statement. -/
def pgTruncateStmt (tables : List String) : String :=
  "TRUNCATE " ++ String.intercalate ", " tables ++ " RESTART IDENTITY CASCADE"

/-- `PostgresDatabase.TruncateTables`. -/
def PGTruncateTables (env : TxEnv) (tables : List String) (dryRun : Bool) :
    TxResult Unit :=
  let query := pgTruncateStmt tables
  if dryRun then tlog ("[dry-run] " ++ query)
  else texec env query

/-- The per-table loop of `MySQLDatabase.TruncateTables`. -/
def mysqlTruncLoop (env : TxEnv) (dryRun : Bool) : List String → TxResult Unit
  | [] => tpure ()
  | t :: ts =>
    let query := "TRUNCATE TABLE " ++ lastPart t
    tbind (if dryRun then tlog ("[dry-run] " ++ query) else texec env query)
      (fun _ => mysqlTruncLoop env dryRun ts)

/-- `MySQLDatabase.TruncateTables`: disables foreign-key checks, truncates
each table (skipped in dry-run), re-enables the checks.  The two `SET`
statements execute even in dry-run. -/
def MySQLTruncateTables (env : TxEnv) (tables : List String) (dryRun : Bool) :
    TxResult Unit :=
  tbind (texec env "SET FOREIGN_KEY_CHECKS = 0") (fun _ =>
  tbind (mysqlTruncLoop env dryRun tables) (fun _ =>
  texec env "SET FOREIGN_KEY_CHECKS = 1"))

def TruncateTables (env : TxEnv) (kind : DBKind) (tables : List String)
    (dryRun : Bool) : TxResult Unit :=
  match kind with
  | .postgres => PGTruncateTables env tables dryRun
  | .mysql => MySQLTruncateTables env tables dryRun

def insertCols (row : Row) : List String := row.map Prod.fst

def insertVals (row : Row) : List Value := row.map Prod.snd

def placeholderList (kind : DBKind) (n : Nat) : List String :=
  (List.range n).map (fun i => Placeholder kind (i+1))

/-- The parameterized insert statement built by `Database.InsertRow`
(column order is the row's own field order; MySQL strips the schema). -/
def insertQuery (kind : DBKind) (table : String) (row : Row) : String :=
  let tname := match kind with
    | .postgres => table
    | .mysql => lastPart table
  "INSERT INTO " ++ tname ++ " (" ++
    String.intercalate ", " (insertCols row) ++ ") VALUES (" ++
    String.intercalate ", " (placeholderList kind row.length) ++ ")"

/-- `Database.InsertRow`: dry-run renders the statement and parameters,
otherwise the parameterized insert executes. -/
def InsertRow (env : TxEnv) (kind : DBKind) (table : String) (row : Row)
    (dryRun : Bool) : TxResult Unit :=
  let query := insertQuery kind table row
  if dryRun then
    tlog ("[dry-run] " ++ query ++ " :: " ++ renderVals (insertVals row))
  else
    ⟨[.execArgs query (insertVals row)], [],
      env.execArgsRes query (insertVals row)⟩

/-- The Postgres reset-sequences statement for one table
(`fmt.Sprintf` of the `DO $$ … $$` template). -/
def pgResetQuery (schemaTable p0 p1 : String) : String :=
  "\nDO $$\nDECLARE\n    r record;\nBEGIN\n    FOR r IN\n" ++
  "        SELECT column_default, column_name FROM information_schema.columns\n" ++
  "        WHERE table_schema = '" ++ p0 ++ "' AND table_name = '" ++ p1 ++
  "' AND column_default LIKE 'nextval%'\n    LOOP\n" ++
  "        EXECUTE format('SELECT setval(pg_get_serial_sequence(''" ++
  schemaTable ++ "'', ''%s''), COALESCE(MAX(%s), 1)) FROM " ++ schemaTable ++
  "',\n            r.column_name, r.column_name, r.column_name, '" ++
  schemaTable ++ "');\n    END LOOP;\nEND$$;\n"

/-- `PostgresDatabase.ResetSequences`. -/
def PGResetSequences (env : TxEnv) (dryRun : Bool) :
    List String → TxResult Unit
  | [] => tpure ()
  | t :: ts =>
    let parts := splitDot t
    if parts.length ≠ 2 then
      ⟨[], [], .error ("invalid table name: " ++ quoteGo t)⟩
    else
      let query := pgResetQuery t (parts.getD 0 "") (parts.getD 1 "")
      tbind (if dryRun then tlog ("[dry-run] " ++ query) else texec env query)
        (fun _ => PGResetSequences env dryRun ts)

/-- The MySQL auto-increment column catalog query for one table. -/
def mysqlAutoIncQuery (dbName tableName : String) : String :=
  "\nSELECT COLUMN_NAME\nFROM INFORMATION_SCHEMA.COLUMNS\n" ++
  "WHERE TABLE_SCHEMA = '" ++ dbName ++ "'\n  AND TABLE_NAME = '" ++
  tableName ++ "'\n  AND EXTRA LIKE '%auto_increment%'\n"

/-- The per-column loop of `MySQLDatabase.ResetSequences`: the max-value
query executes even in dry-run; only the `ALTER` is skipped. -/
def mysqlResetCols (env : TxEnv) (dryRun : Bool) (tableName : String) :
    List String → TxResult Unit
  | [] => tpure ()
  | column :: cols =>
    let maxQuery := "SELECT COALESCE(MAX(" ++ column ++ "), 0) + 1 FROM " ++
      tableName
    tbind ⟨[.query maxQuery], [],
        (env.queryRes maxQuery).mapError
          (fun e => "get max value: " ++ e)⟩ (fun v =>
      match v with
      | .int maxVal =>
        let alterQuery := "ALTER TABLE " ++ tableName ++
          " AUTO_INCREMENT = " ++ toString maxVal
        tbind (if dryRun then tlog ("[dry-run] " ++ alterQuery)
          else tmapError (texec env alterQuery)
            (fun e => "set auto_increment: " ++ e))
          (fun _ => mysqlResetCols env dryRun tableName cols)
      | _ => ⟨[], [], .error "get max value: scan type mismatch"⟩)

/-- `MySQLDatabase.ResetSequences`: per table, query the auto-increment
columns (even in dry-run) and reset each. -/
def MySQLResetSequences (env : TxEnv) (dryRun : Bool) :
    List String → TxResult Unit
  | [] => tpure ()
  | schemaTable :: ts =>
    let parts := splitDot schemaTable
    if parts.length = 2 ∨ parts.length = 1 then
      let dbName := if parts.length = 2 then parts.getD 0 "" else "db"
      let tableName := if parts.length = 2 then parts.getD 1 ""
        else parts.getD 0 ""
      let q := mysqlAutoIncQuery dbName tableName
      tbind ⟨[.queryCols q], [],
          (env.queryColsRes q).mapError
            (fun e => "query auto_increment columns: " ++ e)⟩
        (fun columns =>
          tbind (mysqlResetCols env dryRun tableName columns)
            (fun _ => MySQLResetSequences env dryRun ts))
    else ⟨[], [], .error ("invalid table name: " ++ quoteGo schemaTable)⟩

def ResetSequences (env : TxEnv) (kind : DBKind) (dryRun : Bool)
    (tables : List String) : TxResult Unit :=
  match kind with
  | .postgres => PGResetSequences env dryRun tables
  | .mysql => MySQLResetSequences env dryRun tables

structure LoaderConfig where
  filePath : String
  truncate : Bool
  resetSeq : Bool
  dryRun : Bool

/-- The `$eval` processing loop of `Loader.insertRow`: a field whose
value matches the `$eval(expr)` marker is replaced by the scalar result
of running `expr` (rewritten by `convertIntervalSyntax` when the backend
is MySQL) in the same transaction.  Note there is no dry-run check here:
the sub-query executes regardless. -/
def processFields (env : TxEnv) (kind : DBKind) :
    List (String × Value) → TxResult Row
  | [] => tpure []
  | (col, val) :: rest =>
    match Parser.IsEval val with
    | some expr0 =>
      let expr := if kind = .mysql then convertIntervalSyntax expr0
        else expr0
      tbind ⟨[.query expr], [],
          (env.queryRes expr).mapError
            (fun e => "eval " ++ quoteGo expr ++ ": " ++ e)⟩
        (fun v => tbind (processFields env kind rest)
          (fun pr => tpure ((col, v) :: pr)))
    | none =>
      tbind (processFields env kind rest)
        (fun pr => tpure ((col, val) :: pr))

/-- `Loader.insertRow`: resolve `$eval` fields, then hand the processed
row to the dialect's `InsertRow`. -/
def insertRow (env : TxEnv) (kind : DBKind) (dryRun : Bool)
    (table : String) (row : Row) : TxResult Unit :=
  tbind (processFields env kind row)
    (fun processedRow => InsertRow env kind table processedRow dryRun)

/-- The rows of one table in the insert loop of `Loader.Load`, with the
per-row error context. -/
def insertRows (env : TxEnv) (kind : DBKind) (dryRun : Bool)
    (table : String) : List Row → TxResult Unit
  | [] => tpure ()
  | r :: rs =>
    tbind (tmapError (insertRow env kind dryRun table r)
        (fun e => "insert into " ++ quoteGo table ++ ": " ++ e))
      (fun _ => insertRows env kind dryRun table rs)

/-- `fixtures[table]` (missing key = no rows). -/
def lookupRows (fixtures : List (String × List Row)) (t : String) :
    List Row :=
  (fixtures.lookup t).getD []

/-- The insert loop of `Loader.Load` over the tables in visiting order
(the caller passes the sorted list already reversed). -/
def insertLoop (env : TxEnv) (kind : DBKind) (dryRun : Bool)
    (fixtures : List (String × List Row)) : List String → TxResult Unit
  | [] => tpure ()
  | t :: ts =>
    tbind (insertRows env kind dryRun t (lookupRows fixtures t))
      (fun _ => insertLoop env kind dryRun fixtures ts)

/-- `if err != nil { _ = tx.Rollback(); return err }` around one step of
`Loader.Load`. -/
def withRollback (a : TxResult Unit) (k : Unit → TxResult Unit) :
    TxResult Unit :=
  match a.result with
  | .error e => ⟨a.events ++ [.rollback], a.logs, .error e⟩
  | .ok _ =>
    let b := k ()
    ⟨a.events ++ b.events, a.logs ++ b.logs, b.result⟩

/-- `tx.Commit()`: the commit event is recorded only when the commit
succeeds. -/
def commitTx (env : TxEnv) : TxResult Unit :=
  match env.commitRes with
  | .ok _ => ⟨[.commit], [], .ok ()⟩
  | .error e => ⟨[], [], .error e⟩

/-- The transaction body of `Loader.Load` (lines 69–104): begin, optional
truncate, inserts over the reversed sorted order, optional sequence
reset, commit; every failing step explicitly rolls back before its error
is returned. -/
def loadTx (env : TxEnv) (kind : DBKind) (config : LoaderConfig)
    (sorted : List String) (fixtures : List (String × List Row)) :
    TxResult Unit :=
  match env.beginRes with
  | .error e => ⟨[], [], .error ("begin tx: " ++ e)⟩
  | .ok _ =>
    withRollback
      (if config.truncate then
        TruncateTables env kind sorted config.dryRun
      else tpure ())
      (fun _ => withRollback
        (insertLoop env kind config.dryRun fixtures sorted.reverse)
        (fun _ => withRollback
          (if config.resetSeq then
            ResetSequences env kind config.dryRun sorted
          else tpure ())
          (fun _ => commitTx env)))

/-- `Loader.Load` after parsing: the requested set is the fixture
document's table keys, the dependency graph is topologically sorted, and
the transaction body runs on the result. -/
def Load (env : TxEnv) (kind : DBKind) (config : LoaderConfig)
    (deps : DB.Graph) (fixtures : List (String × List Row)) :
    TxResult Unit :=
  let tables := fixtures.map Prod.fst
  match DB.TopoSort deps tables with
  | .error e => ⟨[], [], .error e⟩
  | .ok sorted => loadTx env kind config sorted fixtures

/-- An environment in which every call succeeds and every single-value
query returns `qv` of the statement. -/
def allOkEnv (qv : String → Value) : TxEnv :=
  ⟨fun _ => .ok (), fun _ _ => .ok (), fun s => .ok (qv s),
   fun _ => .ok [], .ok (), .ok ()⟩

/-- A piece of the transaction that issues neither rollback nor commit. -/
def NoTx {α : Type} (r : TxResult α) : Prop :=
  ∀ ev ∈ r.events, ev ≠ Ev.rollback ∧ ev ≠ Ev.commit

theorem noTx_tpure {α : Type} (a : α) : NoTx (tpure a) := by
  intro ev hev
  simp [tpure] at hev

theorem noTx_tbind {α β : Type} {a : TxResult α} {k : α → TxResult β}
    (ha : NoTx a) (hk : ∀ v, NoTx (k v)) : NoTx (tbind a k) := by
  intro ev hev
  unfold tbind at hev
  cases h : a.result with
  | error e => rw [h] at hev; exact ha ev hev
  | ok v =>
    rw [h] at hev
    simp only [List.mem_append] at hev
    rcases hev with hev | hev
    · exact ha ev hev
    · exact hk v ev hev

theorem noTx_texec (env : TxEnv) (q : String) : NoTx (texec env q) := by
  intro ev hev
  simp only [texec, List.mem_singleton] at hev
  subst hev
  exact ⟨by simp, by simp⟩

theorem noTx_tlog (msg : String) : NoTx (tlog msg) := by
  intro ev hev
  simp [tlog] at hev

theorem noTx_tmapError {α : Type} {a : TxResult α} (f : String → String)
    (ha : NoTx a) : NoTx (tmapError a f) := by
  intro ev hev
  unfold tmapError at hev
  cases h : a.result with
  | error e => rw [h] at hev; exact ha ev hev
  | ok v => rw [h] at hev; exact ha ev hev

theorem noTx_if {c : Prop} [Decidable c] {a b : TxResult Unit}
    (ha : NoTx a) (hb : NoTx b) : NoTx (if c then a else b) := by
  by_cases h : c
  · rw [if_pos h]; exact ha
  · rw [if_neg h]; exact hb

theorem noTx_raw {α : Type} (evs : List Ev) (lgs : List String)
    (res : Except String α)
    (h : ∀ ev ∈ evs, ev ≠ Ev.rollback ∧ ev ≠ Ev.commit) :
    NoTx (⟨evs, lgs, res⟩ : TxResult α) := h

theorem noTx_mysqlTruncLoop (env : TxEnv) (dryRun : Bool) :
    ∀ ts, NoTx (mysqlTruncLoop env dryRun ts) := by
  intro ts
  induction ts with
  | nil => exact noTx_tpure ()
  | cons t ts ih =>
    exact noTx_tbind (noTx_if (noTx_tlog _) (noTx_texec _ _)) (fun _ => ih)

theorem noTx_TruncateTables (env : TxEnv) (kind : DBKind)
    (tables : List String) (dryRun : Bool) :
    NoTx (TruncateTables env kind tables dryRun) := by
  cases kind with
  | postgres => exact noTx_if (noTx_tlog _) (noTx_texec _ _)
  | mysql =>
    exact noTx_tbind (noTx_texec _ _)
      (fun _ => noTx_tbind (noTx_mysqlTruncLoop env dryRun tables)
        (fun _ => noTx_texec _ _))

theorem noTx_PGResetSequences (env : TxEnv) (dryRun : Bool) :
    ∀ ts, NoTx (PGResetSequences env dryRun ts) := by
  intro ts
  induction ts with
  | nil => exact noTx_tpure ()
  | cons t ts ih =>
    show NoTx (if (splitDot t).length ≠ 2 then _ else _)
    apply noTx_if
    · exact noTx_raw _ _ _ (by intro ev hev; simp at hev)
    · exact noTx_tbind (noTx_if (noTx_tlog _) (noTx_texec _ _)) (fun _ => ih)

theorem noTx_mysqlResetCols (env : TxEnv) (dryRun : Bool)
    (tableName : String) :
    ∀ cols, NoTx (mysqlResetCols env dryRun tableName cols) := by
  intro cols
  induction cols with
  | nil => exact noTx_tpure ()
  | cons c cols ih =>
    apply noTx_tbind
    · intro ev hev
      simp only [List.mem_singleton] at hev
      subst hev
      exact ⟨by simp, by simp⟩
    · intro v
      cases v with
      | int maxVal =>
        exact noTx_tbind
          (noTx_if (noTx_tlog _) (noTx_tmapError _ (noTx_texec _ _)))
          (fun _ => ih)
      | str s => exact noTx_raw _ _ _ (by intro ev hev; simp at hev)
      | bool b => exact noTx_raw _ _ _ (by intro ev hev; simp at hev)
      | null => exact noTx_raw _ _ _ (by intro ev hev; simp at hev)

theorem noTx_MySQLResetSequences (env : TxEnv) (dryRun : Bool) :
    ∀ ts, NoTx (MySQLResetSequences env dryRun ts) := by
  intro ts
  induction ts with
  | nil => exact noTx_tpure ()
  | cons t ts ih =>
    show NoTx (if _ ∨ _ then _ else _)
    apply noTx_if
    · apply noTx_tbind
      · intro ev hev
        simp only [List.mem_singleton] at hev
        subst hev
        exact ⟨by simp, by simp⟩
      · intro cols
        exact noTx_tbind (noTx_mysqlResetCols env dryRun _ cols)
          (fun _ => ih)
    · exact noTx_raw _ _ _ (by intro ev hev; simp at hev)

theorem noTx_ResetSequences (env : TxEnv) (kind : DBKind) (dryRun : Bool)
    (tables : List String) :
    NoTx (ResetSequences env kind dryRun tables) := by
  cases kind with
  | postgres => exact noTx_PGResetSequences env dryRun tables
  | mysql => exact noTx_MySQLResetSequences env dryRun tables

theorem noTx_processFields (env : TxEnv) (kind : DBKind) :
    ∀ row, NoTx (processFields env kind row) := by
  intro row
  induction row with
  | nil => exact noTx_tpure []
  | cons cv rest ih =>
    obtain ⟨col, val⟩ := cv
    show NoTx (match Parser.IsEval val with
      | some expr0 => _
      | none => _)
    cases Parser.IsEval val with
    | some expr0 =>
      apply noTx_tbind
      · intro ev hev
        simp only [List.mem_singleton] at hev
        subst hev
        exact ⟨by simp, by simp⟩
      · exact fun v => noTx_tbind ih (fun pr => noTx_tpure _)
    | none => exact noTx_tbind ih (fun pr => noTx_tpure _)

theorem noTx_InsertRow (env : TxEnv) (kind : DBKind) (table : String)
    (row : Row) (dryRun : Bool) : NoTx (InsertRow env kind table row dryRun) := by
  apply noTx_if (noTx_tlog _)
  intro ev hev
  simp only [List.mem_singleton] at hev
  subst hev
  exact ⟨by simp, by simp⟩

theorem noTx_insertRows (env : TxEnv) (kind : DBKind) (dryRun : Bool)
    (table : String) : ∀ rs, NoTx (insertRows env kind dryRun table rs) := by
  intro rs
  induction rs with
  | nil => exact noTx_tpure ()
  | cons r rs ih =>
    exact noTx_tbind
      (noTx_tmapError _
        (noTx_tbind (noTx_processFields env kind r)
          (fun pr => noTx_InsertRow env kind table pr dryRun)))
      (fun _ => ih)

theorem noTx_insertLoop (env : TxEnv) (kind : DBKind) (dryRun : Bool)
    (fixtures : List (String × List Row)) :
    ∀ ts, NoTx (insertLoop env kind dryRun fixtures ts) := by
  intro ts
  induction ts with
  | nil => exact noTx_tpure ()
  | cons t ts ih =>
    exact noTx_tbind (noTx_insertRows env kind dryRun t _) (fun _ => ih)

theorem count_commit_zero {l : List Ev}
    (h : ∀ ev ∈ l, ev ≠ Ev.rollback ∧ ev ≠ Ev.commit) :
    l.count Ev.commit = 0 :=
  List.count_eq_zero.mpr (fun hm => (h _ hm).2 rfl)

/-- C2: in the transaction body of `Loader.Load`, whenever a step
(truncation, a row insertion with its `$eval` sub-queries, or sequence
reset) fails, the transaction is rolled back — the rollback is the last
event — and no commit ever happens; a commit, when present, is unique,
final, and implies the whole load succeeded; and the only error paths
without a rollback are a failed `Begin` (nothing executed) and a failed
`Commit` itself (every enabled step had already succeeded). -/
theorem loadTx_rollback_commit (env : TxEnv) (kind : DBKind)
    (config : LoaderConfig) (sorted : List String)
    (fixtures : List (String × List Row)) :
    (Ev.commit ∈ (loadTx env kind config sorted fixtures).events →
      (loadTx env kind config sorted fixtures).events.getLast?
          = some Ev.commit ∧
      (loadTx env kind config sorted fixtures).events.count Ev.commit = 1 ∧
      Ev.rollback ∉ (loadTx env kind config sorted fixtures).events ∧
      (loadTx env kind config sorted fixtures).result = .ok ()) ∧
    (∀ e, (loadTx env kind config sorted fixtures).result = .error e →
      Ev.commit ∉ (loadTx env kind config sorted fixtures).events ∧
      ((loadTx env kind config sorted fixtures).events.getLast?
          = some Ev.rollback ∨
       (∃ e0, env.beginRes = .error e0 ∧
         (loadTx env kind config sorted fixtures).events = []) ∨
       env.commitRes = .error e)) ∧
    ((loadTx env kind config sorted fixtures).result = .ok () →
      (loadTx env kind config sorted fixtures).events.getLast?
        = some Ev.commit) := by
  have hTnt : NoTx (if config.truncate then
      TruncateTables env kind sorted config.dryRun else tpure ()) :=
    noTx_if (noTx_TruncateTables env kind sorted config.dryRun)
      (noTx_tpure ())
  have hInt : NoTx (insertLoop env kind config.dryRun fixtures
      sorted.reverse) :=
    noTx_insertLoop env kind config.dryRun fixtures sorted.reverse
  have hRnt : NoTx (if config.resetSeq then
      ResetSequences env kind config.dryRun sorted else tpure ()) :=
    noTx_if (noTx_ResetSequences env kind config.dryRun sorted)
      (noTx_tpure ())
  unfold loadTx
  cases hb : env.beginRes with
  | error e0 =>
    refine ⟨?_, ?_, ?_⟩
    · intro h; simp at h
    · intro e _
      exact ⟨by simp, Or.inr (Or.inl ⟨e0, rfl, rfl⟩)⟩
    · intro h; simp at h
  | ok _ =>
    generalize hT : (if config.truncate then
      TruncateTables env kind sorted config.dryRun else tpure ()) = T
      at hTnt ⊢
    generalize hI : insertLoop env kind config.dryRun fixtures
      sorted.reverse = I at hInt ⊢
    generalize hR : (if config.resetSeq then
      ResetSequences env kind config.dryRun sorted else tpure ()) = R
      at hRnt ⊢
    cases hTr : T.result with
    | error e1 =>
      simp only [withRollback, hTr]
      refine ⟨?_, ?_, ?_⟩
      · intro h
        exfalso
        rcases List.mem_append.mp h with h2 | h2
        · exact (hTnt _ h2).2 rfl
        · simp at h2
      · intro e he
        refine ⟨?_, Or.inl (List.getLast?_concat _)⟩
        intro h2
        rcases List.mem_append.mp h2 with h3 | h3
        · exact (hTnt _ h3).2 rfl
        · simp at h3
      · intro h; simp at h
    | ok _ =>
      simp only [withRollback, hTr]
      cases hIr : I.result with
      | error e1 =>
        simp only [hIr]
        refine ⟨?_, ?_, ?_⟩
        · intro h
          exfalso
          rcases List.mem_append.mp h with h2 | h2
          · exact (hTnt _ h2).2 rfl
          · rcases List.mem_append.mp h2 with h3 | h3
            · exact (hInt _ h3).2 rfl
            · simp at h3
        · intro e he
          refine ⟨?_, Or.inl ?_⟩
          · intro h2
            rcases List.mem_append.mp h2 with h3 | h3
            · exact (hTnt _ h3).2 rfl
            · rcases List.mem_append.mp h3 with h4 | h4
              · exact (hInt _ h4).2 rfl
              · simp at h4
          · rw [← List.append_assoc]
            exact List.getLast?_concat _
        · intro h; simp at h
      | ok _ =>
        simp only [hIr]
        cases hRr : R.result with
        | error e1 =>
          simp only [hRr]
          refine ⟨?_, ?_, ?_⟩
          · intro h
            exfalso
            rcases List.mem_append.mp h with h2 | h2
            · exact (hTnt _ h2).2 rfl
            · rcases List.mem_append.mp h2 with h3 | h3
              · exact (hInt _ h3).2 rfl
              · rcases List.mem_append.mp h3 with h4 | h4
                · exact (hRnt _ h4).2 rfl
                · simp at h4
          · intro e he
            refine ⟨?_, Or.inl ?_⟩
            · intro h2
              rcases List.mem_append.mp h2 with h3 | h3
              · exact (hTnt _ h3).2 rfl
              · rcases List.mem_append.mp h3 with h4 | h4
                · exact (hInt _ h4).2 rfl
                · rcases List.mem_append.mp h4 with h5 | h5
                  · exact (hRnt _ h5).2 rfl
                  · simp at h5
            · rw [← List.append_assoc, ← List.append_assoc]
              exact List.getLast?_concat _
          · intro h; simp at h
        | ok _ =>
          simp only [hRr, commitTx]
          cases hc : env.commitRes with
          | ok _ =>
            have hlast : (T.events ++ (I.events ++ (R.events ++
                [Ev.commit]))).getLast? = some Ev.commit := by
              rw [← List.append_assoc, ← List.append_assoc]
              exact List.getLast?_concat _
            refine ⟨?_, ?_, ?_⟩
            · intro _
              refine ⟨hlast, ?_, ?_, rfl⟩
              · rw [List.count_append, List.count_append,
                  List.count_append, count_commit_zero hTnt,
                  count_commit_zero hInt, count_commit_zero hRnt]
                rfl
              · intro h2
                rcases List.mem_append.mp h2 with h3 | h3
                · exact (hTnt _ h3).1 rfl
                · rcases List.mem_append.mp h3 with h4 | h4
                  · exact (hInt _ h4).1 rfl
                  · rcases List.mem_append.mp h4 with h5 | h5
                    · exact (hRnt _ h5).1 rfl
                    · simp at h5
            · intro e he; simp at he
            · intro _; exact hlast
          | error ec =>
            refine ⟨?_, ?_, ?_⟩
            · intro h
              exfalso
              rcases List.mem_append.mp h with h2 | h2
              · exact (hTnt _ h2).2 rfl
              · rcases List.mem_append.mp h2 with h3 | h3
                · exact (hInt _ h3).2 rfl
                · rcases List.mem_append.mp h3 with h4 | h4
                  · exact (hRnt _ h4).2 rfl
                  · simp at h4
            · intro e he
              simp only [List.append_nil] at he ⊢
              refine ⟨?_, Or.inr (Or.inr ?_)⟩
              · intro h2
                rcases List.mem_append.mp h2 with h3 | h3
                · exact (hTnt _ h3).2 rfl
                · rcases List.mem_append.mp h3 with h4 | h4
                  · exact (hInt _ h4).2 rfl
                  · exact (hRnt _ h4).2 rfl
              · cases he
                rfl
            · intro h; simp at h

/-- Witness for C2 at concrete inputs: a failing truncation rolls back
without committing, and an all-successful load ends in the commit. -/
theorem loadTx_rollback_commit_witness :
    Ev.commit ∉ (loadTx
      ⟨fun _ => .error "boom", fun _ _ => .ok (), fun _ => .ok Value.null,
       fun _ => .ok [], .ok (), .ok ()⟩
      .postgres ⟨"", true, false, false⟩ ["public.t"] []).events ∧
    (loadTx (allOkEnv (fun _ => Value.null)) .postgres
      ⟨"", false, false, false⟩ [] []).events.getLast? = some Ev.commit := by
  constructor
  · exact ((loadTx_rollback_commit
      ⟨fun _ => .error "boom", fun _ _ => .ok (), fun _ => .ok Value.null,
       fun _ => .ok [], .ok (), .ok ()⟩
      .postgres ⟨"", true, false, false⟩ ["public.t"] []).2.1 "boom" rfl).1
  · exact (loadTx_rollback_commit (allOkEnv (fun _ => Value.null))
      .postgres ⟨"", false, false, false⟩ [] []).2.2 rfl

/-- What a dry-run load may still execute: any single-value or catalog
query (the `$eval` sub-queries and the MySQL reset lookups), the MySQL
foreign-key-check toggles, and the transaction control — but never an
insert and never any other plain statement (truncates and alters are
only rendered). -/
def DryEv : Ev → Prop
  | .execArgs _ _ => False
  | .exec q => q = "SET FOREIGN_KEY_CHECKS = 0" ∨
      q = "SET FOREIGN_KEY_CHECKS = 1"
  | _ => True

def DrySafe {α : Type} (r : TxResult α) : Prop := ∀ ev ∈ r.events, DryEv ev

theorem drySafe_tpure {α : Type} (a : α) : DrySafe (tpure a) := by
  intro ev hev; simp [tpure] at hev

theorem drySafe_tlog (msg : String) : DrySafe (tlog msg) := by
  intro ev hev; simp [tlog] at hev

theorem drySafe_tbind {α β : Type} {a : TxResult α} {k : α → TxResult β}
    (ha : DrySafe a) (hk : ∀ v, DrySafe (k v)) : DrySafe (tbind a k) := by
  intro ev hev
  unfold tbind at hev
  cases h : a.result with
  | error e => rw [h] at hev; exact ha ev hev
  | ok v =>
    rw [h] at hev
    rcases List.mem_append.mp hev with hev | hev
    · exact ha ev hev
    · exact hk v ev hev

theorem drySafe_tmapError {α : Type} {a : TxResult α} (f : String → String)
    (ha : DrySafe a) : DrySafe (tmapError a f) := by
  intro ev hev
  unfold tmapError at hev
  cases h : a.result with
  | error e => rw [h] at hev; exact ha ev hev
  | ok v => rw [h] at hev; exact ha ev hev

theorem drySafe_raw {α : Type} (evs : List Ev) (lgs : List String)
    (res : Except String α) (h : ∀ ev ∈ evs, DryEv ev) :
    DrySafe (⟨evs, lgs, res⟩ : TxResult α) := h

theorem drySafe_singleton {α : Type} {ev0 : Ev} (lgs : List String)
    (res : Except String α) (h : DryEv ev0) :
    DrySafe (⟨[ev0], lgs, res⟩ : TxResult α) := by
  intro ev hev
  simp only [List.mem_singleton] at hev
  subst hev
  exact h

theorem drySafe_TruncateTables (env : TxEnv) (kind : DBKind)
    (tables : List String) :
    DrySafe (TruncateTables env kind tables true) := by
  cases kind with
  | postgres => exact drySafe_tlog _
  | mysql =>
    apply drySafe_tbind (drySafe_singleton _ _ (by simp [DryEv]))
    intro _
    apply drySafe_tbind ?_
      (fun _ => drySafe_singleton _ _ (by simp [DryEv]))
    induction tables with
    | nil => exact drySafe_tpure ()
    | cons t ts ih => exact drySafe_tbind (drySafe_tlog _) (fun _ => ih)

theorem drySafe_ResetSequences (env : TxEnv) (kind : DBKind)
    (tables : List String) :
    DrySafe (ResetSequences env kind true tables) := by
  cases kind with
  | postgres =>
    induction tables with
    | nil => exact drySafe_tpure ()
    | cons t ts ih =>
      show DrySafe (if (splitDot t).length ≠ 2 then _ else _)
      by_cases h : (splitDot t).length ≠ 2
      · rw [if_pos h]
        exact drySafe_raw _ _ _ (by intro ev hev; simp at hev)
      · rw [if_neg h]
        exact drySafe_tbind (drySafe_tlog _) (fun _ => ih)
  | mysql =>
    induction tables with
    | nil => exact drySafe_tpure ()
    | cons t ts ih =>
      show DrySafe (if _ ∨ _ then _ else _)
      by_cases h : (splitDot t).length = 2 ∨ (splitDot t).length = 1
      · rw [if_pos h]
        apply drySafe_tbind (drySafe_singleton _ _ (by simp [DryEv]))
        intro cols
        apply drySafe_tbind ?_ (fun _ => ih)
        induction cols with
        | nil => exact drySafe_tpure ()
        | cons c cols ihc =>
          apply drySafe_tbind (drySafe_singleton _ _ (by simp [DryEv]))
          intro v
          cases v with
          | int maxVal => exact drySafe_tbind (drySafe_tlog _) (fun _ => ihc)
          | str s => exact drySafe_raw _ _ _ (by intro ev hev; simp at hev)
          | bool b => exact drySafe_raw _ _ _ (by intro ev hev; simp at hev)
          | null => exact drySafe_raw _ _ _ (by intro ev hev; simp at hev)
      · rw [if_neg h]
        exact drySafe_raw _ _ _ (by intro ev hev; simp at hev)

theorem drySafe_insertLoop (env : TxEnv) (kind : DBKind)
    (fixtures : List (String × List Row)) :
    ∀ ts, DrySafe (insertLoop env kind true fixtures ts) := by
  have hrow : ∀ (row : List (String × Value)),
      DrySafe (processFields env kind row) := by
    intro row
    induction row with
    | nil => exact drySafe_tpure []
    | cons cv rest ih =>
      obtain ⟨col, val⟩ := cv
      show DrySafe (match Parser.IsEval val with
        | some expr0 => _
        | none => _)
      cases Parser.IsEval val with
      | some expr0 =>
        exact drySafe_tbind (drySafe_singleton _ _ (by simp [DryEv]))
          (fun v => drySafe_tbind ih (fun pr => drySafe_tpure _))
      | none => exact drySafe_tbind ih (fun pr => drySafe_tpure _)
  intro ts
  induction ts with
  | nil => exact drySafe_tpure ()
  | cons t ts ih =>
    apply drySafe_tbind ?_ (fun _ => ih)
    induction lookupRows fixtures t with
    | nil => exact drySafe_tpure ()
    | cons r rs ihr =>
      apply drySafe_tbind ?_ (fun _ => ihr)
      apply drySafe_tmapError
      exact drySafe_tbind (hrow r) (fun pr => drySafe_tlog _)

/-- C6 (amended): in dry-run mode no insert is ever executed and the only
plain statements executed are the MySQL foreign-key-check toggles —
truncates, inserts and alters are only rendered to the log; but `$eval`
sub-queries (and the MySQL reset lookup queries) still execute, exactly
as they would in a wet run: the queries of `Loader.insertRow` do not
depend on the dry-run flag. -/
theorem loadTx_dryRun_spec :
    (∀ (env : TxEnv) (kind : DBKind) (config : LoaderConfig)
      (sorted : List String) (fixtures : List (String × List Row)),
      config.dryRun = true →
      ∀ ev ∈ (loadTx env kind config sorted fixtures).events,
        (∀ q args, ev ≠ Ev.execArgs q args) ∧
        (∀ q, ev = Ev.exec q → q = "SET FOREIGN_KEY_CHECKS = 0" ∨
          q = "SET FOREIGN_KEY_CHECKS = 1")) ∧
    (∀ (env : TxEnv) (kind : DBKind) (table : String) (row : Row),
      (insertRow env kind true table row).events =
        (processFields env kind row).events) := by
  constructor
  · intro env kind config sorted fixtures hdry ev hev
    have hds : DryEv ev := by
      revert hev
      unfold loadTx
      cases hb : env.beginRes with
      | error e0 => intro hev; simp at hev
      | ok _ =>
        intro hev
        have hT : DrySafe (if config.truncate then
            TruncateTables env kind sorted config.dryRun else tpure ()) := by
          rw [hdry]
          exact (by
            by_cases h : config.truncate
            · rw [if_pos h]; exact drySafe_TruncateTables env kind sorted
            · rw [if_neg h]; exact drySafe_tpure ())
        have hI : DrySafe (insertLoop env kind config.dryRun fixtures
            sorted.reverse) := by
          rw [hdry]
          exact drySafe_insertLoop env kind fixtures sorted.reverse
        have hR : DrySafe (if config.resetSeq then
            ResetSequences env kind config.dryRun sorted else tpure ()) := by
          rw [hdry]
          exact (by
            by_cases h : config.resetSeq
            · rw [if_pos h]; exact drySafe_ResetSequences env kind sorted
            · rw [if_neg h]; exact drySafe_tpure ())
        revert hev
        generalize (if config.truncate then
          TruncateTables env kind sorted config.dryRun else tpure ()) = T
          at hT ⊢
        generalize insertLoop env kind config.dryRun fixtures
          sorted.reverse = I at hI ⊢
        generalize (if config.resetSeq then
          ResetSequences env kind config.dryRun sorted else tpure ()) = R
          at hR ⊢
        intro hev
        unfold withRollback at hev
        cases hTr : T.result with
        | error e => rw [hTr] at hev; simp only at hev
                     rcases List.mem_append.mp hev with h2 | h2
                     · exact hT ev h2
                     · simp only [List.mem_singleton] at h2
                       subst h2; trivial
        | ok _ =>
          rw [hTr] at hev
          simp only at hev
          rcases List.mem_append.mp hev with h2 | h2
          · exact hT ev h2
          · cases hIr : I.result with
            | error e =>
              rw [hIr] at h2
              rcases List.mem_append.mp h2 with h3 | h3
              · exact hI ev h3
              · simp only [List.mem_singleton] at h3
                subst h3; trivial
            | ok _ =>
              rw [hIr] at h2
              rcases List.mem_append.mp h2 with h3 | h3
              · exact hI ev h3
              · cases hRr : R.result with
                | error e =>
                  rw [hRr] at h3
                  rcases List.mem_append.mp h3 with h4 | h4
                  · exact hR ev h4
                  · simp only [List.mem_singleton] at h4
                    subst h4; trivial
                | ok _ =>
                  rw [hRr] at h3
                  rcases List.mem_append.mp h3 with h4 | h4
                  · exact hR ev h4
                  · unfold commitTx at h4
                    cases hc : env.commitRes with
                    | ok _ =>
                      rw [hc] at h4
                      simp only [List.mem_singleton] at h4
                      subst h4; trivial
                    | error e =>
                      rw [hc] at h4
                      simp at h4
    refine ⟨?_, ?_⟩
    · intro q args h
      subst h
      simp [DryEv] at hds
    · intro q h
      subst h
      exact hds
  · intro env kind table row
    unfold insertRow tbind
    cases h : (processFields env kind row).result with
    | error e => rfl
    | ok pr =>
      show (processFields env kind row).events ++
        (InsertRow env kind table pr true).events = _
      rw [show (InsertRow env kind table pr true).events = [] from rfl,
        List.append_nil]

/-- Counterexample to C6: in dry-run mode, a load over a row with an
`$eval` field still executes the dynamic sub-query against the database
(the claim says dry-run executes no statement and never runs `$eval`
sub-queries). -/
theorem loadTx_dryRun_cex :
    Ev.query "SELECT NOW()" ∈ (loadTx (allOkEnv (fun _ => Value.int 2))
      .postgres ⟨"", true, true, true⟩ ["public.users"]
      [("public.users",
        [[("created_at", Value.str "$eval(SELECT NOW())")]])]).events := by
  decide

/-- Witness for C6 (amended) at a concrete dry-run load. -/
theorem loadTx_dryRun_witness :
    (∀ q args, Ev.query "SELECT NOW()" ≠ Ev.execArgs q args) ∧
    (∀ q, Ev.query "SELECT NOW()" = Ev.exec q →
      q = "SET FOREIGN_KEY_CHECKS = 0" ∨
      q = "SET FOREIGN_KEY_CHECKS = 1") := by
  exact loadTx_dryRun_spec.1 (allOkEnv (fun _ => Value.int 2)) .postgres
    ⟨"", true, true, true⟩ ["public.users"]
    [("public.users", [[("created_at", Value.str "$eval(SELECT NOW())")]])]
    rfl (Ev.query "SELECT NOW()") (by decide)

/-- Is the event a parameterized insert (`ExecContext` with arguments)? -/
def isExecArgsEv : Ev → Bool
  | .execArgs _ _ => true
  | _ => false

/-- The row produced by the `$eval` resolution of `Loader.insertRow`
(the error case never occurs on the success paths it is used on). -/
def processedRow (env : TxEnv) (kind : DBKind) (row : Row) : Row :=
  match (processFields env kind row).result with
  | .ok pr => pr
  | .error _ => []

/-- The parameterized insert event recorded for one fixture row. -/
def insertEv (env : TxEnv) (kind : DBKind) (t : String) (r : Row) : Ev :=
  Ev.execArgs (insertQuery kind t (processedRow env kind r))
    (insertVals (processedRow env kind r))

/-- A piece of the transaction that records no parameterized insert. -/
def NoArgs {α : Type} (r : TxResult α) : Prop :=
  ∀ ev ∈ r.events, isExecArgsEv ev = false

theorem noArgs_tpure {α : Type} (a : α) : NoArgs (tpure a) := by
  intro ev hev
  simp [tpure] at hev

theorem noArgs_tbind {α β : Type} {a : TxResult α} {k : α → TxResult β}
    (ha : NoArgs a) (hk : ∀ v, NoArgs (k v)) : NoArgs (tbind a k) := by
  intro ev hev
  unfold tbind at hev
  cases h : a.result with
  | error e => rw [h] at hev; exact ha ev hev
  | ok v =>
    rw [h] at hev
    simp only at hev
    rcases List.mem_append.mp hev with hev | hev
    · exact ha ev hev
    · exact hk v ev hev

theorem noArgs_texec (env : TxEnv) (q : String) : NoArgs (texec env q) := by
  intro ev hev
  simp only [texec, List.mem_singleton] at hev
  subst hev
  rfl

theorem noArgs_tlog (msg : String) : NoArgs (tlog msg) := by
  intro ev hev
  simp [tlog] at hev

theorem noArgs_tmapError {α : Type} {a : TxResult α} (f : String → String)
    (ha : NoArgs a) : NoArgs (tmapError a f) := by
  intro ev hev
  unfold tmapError at hev
  cases h : a.result with
  | error e => rw [h] at hev; exact ha ev hev
  | ok v => rw [h] at hev; exact ha ev hev

theorem noArgs_if {α : Type} {c : Prop} [Decidable c] {a b : TxResult α}
    (ha : NoArgs a) (hb : NoArgs b) : NoArgs (if c then a else b) := by
  by_cases h : c
  · rw [if_pos h]; exact ha
  · rw [if_neg h]; exact hb

theorem noArgs_raw {α : Type} (evs : List Ev) (lgs : List String)
    (res : Except String α)
    (h : ∀ ev ∈ evs, isExecArgsEv ev = false) :
    NoArgs (⟨evs, lgs, res⟩ : TxResult α) := h

theorem noArgs_mysqlTruncLoop (env : TxEnv) (dryRun : Bool) :
    ∀ ts, NoArgs (mysqlTruncLoop env dryRun ts) := by
  intro ts
  induction ts with
  | nil => exact noArgs_tpure ()
  | cons t ts ih =>
    exact noArgs_tbind (noArgs_if (noArgs_tlog _) (noArgs_texec _ _))
      (fun _ => ih)

theorem noArgs_TruncateTables (env : TxEnv) (kind : DBKind)
    (tables : List String) (dryRun : Bool) :
    NoArgs (TruncateTables env kind tables dryRun) := by
  cases kind with
  | postgres => exact noArgs_if (noArgs_tlog _) (noArgs_texec _ _)
  | mysql =>
    exact noArgs_tbind (noArgs_texec _ _)
      (fun _ => noArgs_tbind (noArgs_mysqlTruncLoop env dryRun tables)
        (fun _ => noArgs_texec _ _))

theorem noArgs_PGResetSequences (env : TxEnv) (dryRun : Bool) :
    ∀ ts, NoArgs (PGResetSequences env dryRun ts) := by
  intro ts
  induction ts with
  | nil => exact noArgs_tpure ()
  | cons t ts ih =>
    show NoArgs (if (splitDot t).length ≠ 2 then _ else _)
    apply noArgs_if
    · exact noArgs_raw _ _ _ (by intro ev hev; simp at hev)
    · exact noArgs_tbind (noArgs_if (noArgs_tlog _) (noArgs_texec _ _))
        (fun _ => ih)

theorem noArgs_mysqlResetCols (env : TxEnv) (dryRun : Bool)
    (tableName : String) :
    ∀ cols, NoArgs (mysqlResetCols env dryRun tableName cols) := by
  intro cols
  induction cols with
  | nil => exact noArgs_tpure ()
  | cons c cols ih =>
    apply noArgs_tbind
    · intro ev hev
      simp only [List.mem_singleton] at hev
      subst hev
      rfl
    · intro v
      cases v with
      | int maxVal =>
        exact noArgs_tbind
          (noArgs_if (noArgs_tlog _) (noArgs_tmapError _ (noArgs_texec _ _)))
          (fun _ => ih)
      | str s => exact noArgs_raw _ _ _ (by intro ev hev; simp at hev)
      | bool b => exact noArgs_raw _ _ _ (by intro ev hev; simp at hev)
      | null => exact noArgs_raw _ _ _ (by intro ev hev; simp at hev)

theorem noArgs_MySQLResetSequences (env : TxEnv) (dryRun : Bool) :
    ∀ ts, NoArgs (MySQLResetSequences env dryRun ts) := by
  intro ts
  induction ts with
  | nil => exact noArgs_tpure ()
  | cons t ts ih =>
    show NoArgs (if _ ∨ _ then _ else _)
    apply noArgs_if
    · apply noArgs_tbind
      · intro ev hev
        simp only [List.mem_singleton] at hev
        subst hev
        rfl
      · intro cols
        exact noArgs_tbind (noArgs_mysqlResetCols env dryRun _ cols)
          (fun _ => ih)
    · exact noArgs_raw _ _ _ (by intro ev hev; simp at hev)

theorem noArgs_ResetSequences (env : TxEnv) (kind : DBKind) (dryRun : Bool)
    (tables : List String) :
    NoArgs (ResetSequences env kind dryRun tables) := by
  cases kind with
  | postgres => exact noArgs_PGResetSequences env dryRun tables
  | mysql => exact noArgs_MySQLResetSequences env dryRun tables

theorem noArgs_processFields (env : TxEnv) (kind : DBKind) :
    ∀ row, NoArgs (processFields env kind row) := by
  intro row
  induction row with
  | nil => exact noArgs_tpure []
  | cons cv rest ih =>
    obtain ⟨col, val⟩ := cv
    show NoArgs (match Parser.IsEval val with
      | some expr0 => _
      | none => _)
    cases Parser.IsEval val with
    | some expr0 =>
      apply noArgs_tbind
      · intro ev hev
        simp only [List.mem_singleton] at hev
        subst hev
        rfl
      · exact fun v => noArgs_tbind ih (fun pr => noArgs_tpure _)
    | none => exact noArgs_tbind ih (fun pr => noArgs_tpure _)

theorem filter_noArgs {α : Type} {r : TxResult α} (h : NoArgs r) :
    r.events.filter isExecArgsEv = [] :=
  List.filter_eq_nil_iff.mpr (fun ev hev => by simp [h ev hev])

theorem tbind_error_eq {α β : Type} (a : TxResult α) (k : α → TxResult β)
    (e : String) (h : a.result = .error e) :
    tbind a k = ⟨a.events, a.logs, .error e⟩ := by
  unfold tbind
  rw [h]

theorem tbind_ok_eq {α β : Type} (a : TxResult α) (k : α → TxResult β)
    (v : α) (h : a.result = .ok v) :
    tbind a k = ⟨a.events ++ (k v).events, a.logs ++ (k v).logs,
      (k v).result⟩ := by
  unfold tbind
  rw [h]

theorem withRollback_error_eq (a : TxResult Unit) (k : Unit → TxResult Unit)
    (e : String) (h : a.result = .error e) :
    withRollback a k = ⟨a.events ++ [.rollback], a.logs, .error e⟩ := by
  unfold withRollback
  rw [h]

theorem withRollback_ok_eq (a : TxResult Unit) (k : Unit → TxResult Unit)
    (h : a.result = .ok ()) :
    withRollback a k = ⟨a.events ++ (k ()).events, a.logs ++ (k ()).logs,
      (k ()).result⟩ := by
  unfold withRollback
  rw [h]

theorem tmapError_events {α : Type} (a : TxResult α) (f : String → String) :
    (tmapError a f).events = a.events := by
  unfold tmapError
  cases h : a.result <;> rfl

theorem tmapError_ok_iff {α : Type} (a : TxResult α) (f : String → String)
    (v : α) : (tmapError a f).result = .ok v ↔ a.result = .ok v := by
  unfold tmapError
  cases h : a.result with
  | error e => simp [h]
  | ok w => simp [h]

/-- On success (`dryRun = false`), the inserts of one row are exactly one
parameterized insert of the processed row. -/
theorem insertRow_filter (env : TxEnv) (kind : DBKind) (t : String) (r : Row)
    (hok : (insertRow env kind false t r).result = .ok ()) :
    (insertRow env kind false t r).events.filter isExecArgsEv
      = [insertEv env kind t r] := by
  unfold insertRow at hok ⊢
  cases h : (processFields env kind r).result with
  | error e =>
    rw [tbind_error_eq _ _ e h] at hok
    exact Except.noConfusion hok
  | ok pr =>
    rw [tbind_ok_eq _ _ pr h]
    show ((processFields env kind r).events ++
      (InsertRow env kind t pr false).events).filter isExecArgsEv = _
    rw [List.filter_append, filter_noArgs (noArgs_processFields env kind r),
      List.nil_append]
    show [Ev.execArgs (insertQuery kind t pr) (insertVals pr)].filter
      isExecArgsEv = _
    rw [show insertEv env kind t r
        = Ev.execArgs (insertQuery kind t pr) (insertVals pr) by
      unfold insertEv processedRow
      rw [h]]
    rfl

/-- On success, the inserts of one table are the table's rows in
declaration order. -/
theorem insertRows_filter (env : TxEnv) (kind : DBKind) (t : String) :
    ∀ rs, (insertRows env kind false t rs).result = .ok () →
      (insertRows env kind false t rs).events.filter isExecArgsEv
        = rs.map (insertEv env kind t) := by
  intro rs
  induction rs with
  | nil => intro _; rfl
  | cons r rs ih =>
    intro hok
    have hunf : insertRows env kind false t (r :: rs)
        = tbind (tmapError (insertRow env kind false t r)
            (fun e => "insert into " ++ quoteGo t ++ ": " ++ e))
          (fun _ => insertRows env kind false t rs) := rfl
    rw [hunf] at hok ⊢
    cases hres : (tmapError (insertRow env kind false t r)
        (fun e => "insert into " ++ quoteGo t ++ ": " ++ e)).result with
    | error e =>
      rw [tbind_error_eq _ _ e hres] at hok
      exact Except.noConfusion hok
    | ok v =>
      cases v
      rw [tbind_ok_eq _ _ () hres] at hok ⊢
      have hok2 : (insertRows env kind false t rs).result = .ok () := hok
      show ((tmapError (insertRow env kind false t r)
          (fun e => "insert into " ++ quoteGo t ++ ": " ++ e)).events ++
        (insertRows env kind false t rs).events).filter isExecArgsEv = _
      rw [List.filter_append, ih hok2, tmapError_events,
        insertRow_filter env kind t r ((tmapError_ok_iff _ _ _).mp hres)]
      rfl

/-- On success, the inserts of the table loop are the per-table inserts
concatenated in the loop's table order. -/
theorem insertLoop_filter (env : TxEnv) (kind : DBKind)
    (fixtures : List (String × List Row)) :
    ∀ ts, (insertLoop env kind false fixtures ts).result = .ok () →
      (insertLoop env kind false fixtures ts).events.filter isExecArgsEv
        = ts.flatMap (fun t => (lookupRows fixtures t).map
            (insertEv env kind t)) := by
  intro ts
  induction ts with
  | nil => intro _; rfl
  | cons t ts ih =>
    intro hok
    have hunf : insertLoop env kind false fixtures (t :: ts)
        = tbind (insertRows env kind false t (lookupRows fixtures t))
          (fun _ => insertLoop env kind false fixtures ts) := rfl
    rw [hunf] at hok ⊢
    cases hres : (insertRows env kind false t (lookupRows fixtures t)).result
      with
    | error e =>
      rw [tbind_error_eq _ _ e hres] at hok
      exact Except.noConfusion hok
    | ok v =>
      cases v
      rw [tbind_ok_eq _ _ () hres] at hok ⊢
      have hok2 : (insertLoop env kind false fixtures ts).result = .ok () :=
        hok
      show ((insertRows env kind false t (lookupRows fixtures t)).events ++
        (insertLoop env kind false fixtures ts).events).filter isExecArgsEv
        = _
      rw [List.filter_append, ih hok2,
        insertRows_filter env kind t (lookupRows fixtures t) hres]
      rfl

/-- The reset/commit tail of the transaction records no parameterized
insert, success or not. -/
theorem noArgs_resetCommit (env : TxEnv) (R : TxResult Unit)
    (hR : NoArgs R) :
    NoArgs (withRollback R (fun _ => commitTx env)) := by
  intro ev hev
  unfold withRollback at hev
  cases hRr : R.result with
  | error e =>
    rw [hRr] at hev
    simp only at hev
    rcases List.mem_append.mp hev with h2 | h2
    · exact hR ev h2
    · simp only [List.mem_singleton] at h2
      subst h2
      rfl
  | ok v =>
    rw [hRr] at hev
    simp only at hev
    rcases List.mem_append.mp hev with h2 | h2
    · exact hR ev h2
    · revert h2
      unfold commitTx
      cases hc : env.commitRes with
      | ok _ =>
        intro h2
        simp only [List.mem_singleton] at h2
        subst h2
        rfl
      | error e => intro h2; simp at h2

/-- The parameterized inserts of a successful transaction body are
exactly those of its insert phase. -/
theorem loadTx_body_filter (env : TxEnv) (T I R : TxResult Unit)
    (L : List Ev) (hT : NoArgs T) (hR : NoArgs R)
    (hI : I.result = .ok () → I.events.filter isExecArgsEv = L)
    (hok : (withRollback T (fun _ => withRollback I (fun _ =>
      withRollback R (fun _ => commitTx env)))).result = .ok ()) :
    (withRollback T (fun _ => withRollback I (fun _ =>
      withRollback R (fun _ => commitTx env)))).events.filter isExecArgsEv
      = L := by
  cases hTr : T.result with
  | error e =>
    rw [withRollback_error_eq T _ e hTr] at hok
    exact Except.noConfusion hok
  | ok v =>
    cases v
    rw [withRollback_ok_eq T _ hTr] at hok ⊢
    have hok2 : (withRollback I (fun _ => withRollback R
        (fun _ => commitTx env))).result = .ok () := hok
    show (T.events ++ (withRollback I (fun _ => withRollback R
      (fun _ => commitTx env))).events).filter isExecArgsEv = L
    rw [List.filter_append, filter_noArgs hT, List.nil_append]
    cases hIr : I.result with
    | error e =>
      rw [withRollback_error_eq I _ e hIr] at hok2
      exact Except.noConfusion hok2
    | ok v =>
      cases v
      rw [withRollback_ok_eq I _ hIr]
      show (I.events ++ (withRollback R
        (fun _ => commitTx env)).events).filter isExecArgsEv = L
      rw [List.filter_append, hI hIr,
        filter_noArgs (noArgs_resetCommit env R hR), List.append_nil]

/-- C8: on a successful non-dry-run load whose dependency sort yields
`sorted`, the parameterized inserts are issued table-by-table following
`sorted` reversed (dependency before dependent), and within each table
the rows of the merged fixture document are inserted in declaration
order (each resolved to its processed row). -/
theorem load_insert_order (env : TxEnv) (kind : DBKind)
    (config : LoaderConfig) (deps : DB.Graph)
    (fixtures : List (String × List Row)) (sorted : List String)
    (hdry : config.dryRun = false)
    (hs : DB.TopoSort deps (fixtures.map Prod.fst) = .ok sorted)
    (hok : (Load env kind config deps fixtures).result = .ok ()) :
    (Load env kind config deps fixtures).events.filter isExecArgsEv
      = sorted.reverse.flatMap
          (fun t => (lookupRows fixtures t).map (insertEv env kind t)) := by
  have hload : Load env kind config deps fixtures
      = loadTx env kind config sorted fixtures := by
    simp [Load, hs]
  rw [hload] at hok ⊢
  unfold loadTx at hok ⊢
  cases hb : env.beginRes with
  | error e =>
    rw [hb] at hok
    simp only at hok
    exact Except.noConfusion hok
  | ok u =>
    rw [hb] at hok
    simp only at hok ⊢
    rw [hdry] at hok ⊢
    exact loadTx_body_filter env _ _ _ _
      (noArgs_if (noArgs_TruncateTables env kind sorted false)
        (noArgs_tpure ()))
      (noArgs_if (noArgs_ResetSequences env kind false sorted)
        (noArgs_tpure ()))
      (insertLoop_filter env kind fixtures sorted.reverse)
      hok

/-- Witness for C8 at a two-table load: `orders` depends on `users`, so
the users rows are inserted first, in declaration order. -/
theorem load_insert_order_witness :
    (Load (allOkEnv (fun _ => Value.int 1)) .postgres ⟨"", true, true, false⟩
      [("public.orders", ["public.users"])]
      [("public.orders", [[("id", Value.int 1)]]),
       ("public.users",
        [[("id", Value.int 1)], [("id", Value.int 2)]])]).events.filter
        isExecArgsEv
      = ["public.orders", "public.users"].reverse.flatMap
          (fun t => (lookupRows
            [("public.orders", [[("id", Value.int 1)]]),
             ("public.users",
              [[("id", Value.int 1)], [("id", Value.int 2)]])] t).map
            (insertEv (allOkEnv (fun _ => Value.int 1)) .postgres t)) :=
  load_insert_order (allOkEnv (fun _ => Value.int 1)) .postgres
    ⟨"", true, true, false⟩
    [("public.orders", ["public.users"])]
    [("public.orders", [[("id", Value.int 1)]]),
     ("public.users", [[("id", Value.int 1)], [("id", Value.int 2)]])]
    ["public.orders", "public.users"] rfl rfl rfl

/-- Positions at or past the end of the list trivially hold no match, so
the bounded no-match hypothesis extends to every position. -/
theorem matchIntervalAt_none_all {cs : List Char}
    (h : ∀ i, i < cs.length → matchIntervalAt (cs.drop i) = none) :
    ∀ i, matchIntervalAt (cs.drop i) = none := by
  intro i
  by_cases hi : i < cs.length
  · exact h i hi
  · rw [List.drop_eq_nil_of_le (by omega)]
    rfl

theorem tbind_events_nil {α β : Type} (evs : List Ev) (lgs : List String)
    (res : Except String α) (k : α → TxResult β)
    (hk : ∀ v, (k v).events = []) :
    (tbind ⟨evs, lgs, res⟩ k).events = evs := by
  unfold tbind
  cases res with
  | error e => rfl
  | ok v =>
    show evs ++ (k v).events = evs
    rw [hk v, List.append_nil]

/-- The `$eval` resolution of a single-field row queries exactly the
captured expression — rewritten by `convertIntervalSyntax` only on the
MySQL backend. -/
theorem processFields_single_eval (env : TxEnv) (kind : DBKind)
    (col : String) (v : Value) (expr0 : String)
    (hev : Parser.IsEval v = some expr0) :
    (processFields env kind [(col, v)]).events
      = [Ev.query (if kind = .mysql then convertIntervalSyntax expr0
          else expr0)] := by
  simp only [processFields, hev]
  exact tbind_events_nil _ _ _ _ (fun w => rfl)

/-- C9: `convertIntervalSyntax` rewrites a Postgres interval literal
`INTERVAL '<n> <unit>'` to `INTERVAL <n> <UNIT>` (number kept, unit
upper-cased, rest of the expression preserved); an expression in which
no position starts an interval-literal match is returned unchanged; and
the `$eval` pipeline applies the rewrite to the queried expression
exactly when the backend is MySQL, never for Postgres. -/
theorem convertIntervalSyntax_spec :
    (∀ (pre n u' post : List Char) (u0 : Char),
      (∀ i, i < pre.length →
        matchIntervalAt ((pre ++
          ('I' :: 'N' :: 'T' :: 'E' :: 'R' :: 'V' :: 'A' :: 'L' :: ' ' :: '\'' ::
            (n ++ ' ' :: ((u0 :: u') ++ '\'' :: post)))).drop i) = none) →
      n ≠ [] → (∀ c ∈ n, c.isDigit = true) →
      (∀ c ∈ u0 :: u', (c != '\'') = true) → goSpace u0 = false →
      convertIntervalSyntax (String.mk (pre ++
        ('I' :: 'N' :: 'T' :: 'E' :: 'R' :: 'V' :: 'A' :: 'L' :: ' ' :: '\'' ::
          (n ++ ' ' :: ((u0 :: u') ++ '\'' :: post)))))
        = String.mk (pre ++
            ("INTERVAL ".toList ++ n ++ ' ' :: upperChars (u0 :: u')) ++
            convertChars post)) ∧
    (∀ s : String,
      (∀ i, i < s.data.length → matchIntervalAt (s.data.drop i) = none) →
      convertIntervalSyntax s = s) ∧
    (∀ (env : TxEnv) (col : String) (v : Value) (expr : String),
      Parser.IsEval v = some expr →
      (processFields env .mysql [(col, v)]).events
        = [Ev.query (convertIntervalSyntax expr)] ∧
      (processFields env .postgres [(col, v)]).events
        = [Ev.query expr]) := by
  refine ⟨?_, ?_, ?_⟩
  · intro pre n u' post u0 hpre hn hnd huq hu0
    show String.mk (convertChars (pre ++
      ('I' :: 'N' :: 'T' :: 'E' :: 'R' :: 'V' :: 'A' :: 'L' :: ' ' :: '\'' ::
        (n ++ ' ' :: ((u0 :: u') ++ '\'' :: post))))) = _
    rw [convertChars_pre pre _ hpre,
      convertChars_match (matchIntervalAt_literal n u' u0 post hn hnd huq hu0)]
    simp [intervalReplacement, List.append_assoc]
  · intro s h
    show String.mk (convertChars s.data) = s
    rw [convertChars_id s.data (matchIntervalAt_none_all h)]
  · intro env col v expr hev
    constructor
    · rw [processFields_single_eval env .mysql col v expr hev, if_pos rfl]
    · rw [processFields_single_eval env .postgres col v expr hev,
        if_neg (by decide)]

/-- Witness for C9: the interval literal of a `NOW()` offset expression
is rewritten for MySQL (and only there), and an interval-free expression
passes through unchanged. -/
theorem convertIntervalSyntax_spec_witness :
    convertIntervalSyntax "SELECT NOW() - INTERVAL '1 day'"
      = "SELECT NOW() - INTERVAL 1 DAY" ∧
    convertIntervalSyntax "SELECT 1+1" = "SELECT 1+1" ∧
    (processFields (allOkEnv (fun _ => Value.int 0)) .mysql
        [("created_at",
          Value.str "$eval(SELECT NOW() - INTERVAL '1 day')")]).events
      = [Ev.query "SELECT NOW() - INTERVAL 1 DAY"] ∧
    (processFields (allOkEnv (fun _ => Value.int 0)) .postgres
        [("created_at",
          Value.str "$eval(SELECT NOW() - INTERVAL '1 day')")]).events
      = [Ev.query "SELECT NOW() - INTERVAL '1 day'"] := by
  refine ⟨?_, ?_, ?_, ?_⟩
  · have h1 := convertIntervalSyntax_spec.1 "SELECT NOW() - ".toList ['1']
      ['a','y'] [] 'd' (by decide) (by decide) (by decide) (by decide) rfl
    exact (show convertIntervalSyntax "SELECT NOW() - INTERVAL '1 day'"
        = String.mk ("SELECT NOW() - ".toList ++
            ("INTERVAL ".toList ++ ['1'] ++ ' ' :: upperChars ['d','a','y'])
            ++ convertChars []) from h1).trans (by decide)
  · exact convertIntervalSyntax_spec.2.1 "SELECT 1+1" (by decide)
  · have h3 := (convertIntervalSyntax_spec.2.2
      (allOkEnv (fun _ => Value.int 0)) "created_at"
      (Value.str "$eval(SELECT NOW() - INTERVAL '1 day')")
      "SELECT NOW() - INTERVAL '1 day'" (by decide)).1
    exact h3.trans (by decide)
  · exact (convertIntervalSyntax_spec.2.2
      (allOkEnv (fun _ => Value.int 0)) "created_at"
      (Value.str "$eval(SELECT NOW() - INTERVAL '1 day')")
      "SELECT NOW() - INTERVAL '1 day'" (by decide)).2

end Loader

end PgFixtures
